import Mathlib

/-!
Verification of the diff-computation and incremental-review engine of the
Berean CLI (src/services/azure-devops.ts and src/commands/review.ts).

JavaScript strings are modelled as `List Char` (`JStr`); line sequences as
`List JStr`.  Machine numbers are `Nat` (all quantities involved are
non-negative counters and lengths; `Math.max(0, a - 3)` coincides with
truncated `Nat` subtraction).  Each definition is a direct transcription of
the corresponding source function; loops become recursions carrying the
same state.
-/

namespace Berean

/-- Model of a JavaScript string: its sequence of characters. -/
abbrev JStr := List Char

/-- The `type` field of a diff operation in `generateUnifiedDiff`:
`'keep' | 'add' | 'del'`. -/
inductive OpKind where
  | keep
  | add
  | del
deriving DecidableEq, Repr

/-- One element of the `ops` array built by the matchers:
`{ type, line, oldNum, newNum }`. -/
structure DiffOp where
  kind : OpKind
  line : JStr
  oldNum : Nat
  newNum : Nat
deriving DecidableEq, Repr

instance : Inhabited DiffOp := ⟨⟨OpKind.keep, [], 0, 0⟩⟩

/-- The LCS dynamic-programming table of `generateUnifiedDiff`
(azure-devops.ts lines 528-536): `lcsTable old new i j` is `dp[i][j]`,
the LCS length of the first `i` old lines and the first `j` new lines. -/
def lcsTable (oldLines newLines : List JStr) : Nat → Nat → Nat
  | 0, _ => 0
  | _ + 1, 0 => 0
  | i + 1, j + 1 =>
    if oldLines.getD i [] = newLines.getD j [] then
      lcsTable oldLines newLines i j + 1
    else
      max (lcsTable oldLines newLines i (j + 1)) (lcsTable oldLines newLines (i + 1) j)
termination_by i j => i + j

/-- The traceback loop of `generateUnifiedDiff` (lines 543-554).
`lcsTraceback old new i j` is the list of ops accumulated (via `unshift`,
hence in forward order) by the loop started at cursors `(i, j)`.
The branch conditions transcribe the source: keep on equality, otherwise
`add` when `j > 0 && (i === 0 || dp[i][j-1] >= dp[i-1][j])`, else `del`. -/
def lcsTraceback (oldLines newLines : List JStr) : Nat → Nat → List DiffOp
  | 0, 0 => []
  | 0, j + 1 =>
    lcsTraceback oldLines newLines 0 j ++ [⟨OpKind.add, newLines.getD j [], 0, j + 1⟩]
  | i + 1, 0 =>
    lcsTraceback oldLines newLines i 0 ++ [⟨OpKind.del, oldLines.getD i [], i + 1, 0⟩]
  | i + 1, j + 1 =>
    if oldLines.getD i [] = newLines.getD j [] then
      lcsTraceback oldLines newLines i j ++ [⟨OpKind.keep, oldLines.getD i [], i + 1, j + 1⟩]
    else if lcsTable oldLines newLines i (j + 1) ≤ lcsTable oldLines newLines (i + 1) j then
      lcsTraceback oldLines newLines (i + 1) j ++ [⟨OpKind.add, newLines.getD j [], 0, j + 1⟩]
    else
      lcsTraceback oldLines newLines i (j + 1) ++ [⟨OpKind.del, oldLines.getD i [], i + 1, 0⟩]
termination_by i j => i + j

/-- The edit script of the LCS matcher: the traceback started at `(n, m)`. -/
def lcsOps (oldLines newLines : List JStr) : List DiffOp :=
  lcsTraceback oldLines newLines oldLines.length newLines.length

/-- The lockstep walk of `generateFallbackDiff` (lines 566-582), carrying
the two 1-based line counters.  On a mismatch with both cursors in range it
emits one `del` then one `add` and advances both. -/
def fallbackWalk : List JStr → List JStr → Nat → Nat → List DiffOp
  | [], [], _, _ => []
  | [], n :: ns, oldNum, newNum =>
    ⟨OpKind.add, n, 0, newNum⟩ :: fallbackWalk [] ns oldNum (newNum + 1)
  | o :: os, [], oldNum, newNum =>
    ⟨OpKind.del, o, oldNum, 0⟩ :: fallbackWalk os [] (oldNum + 1) newNum
  | o :: os, n :: ns, oldNum, newNum =>
    if o = n then
      ⟨OpKind.keep, o, oldNum, newNum⟩ :: fallbackWalk os ns (oldNum + 1) (newNum + 1)
    else
      ⟨OpKind.del, o, oldNum, 0⟩ :: ⟨OpKind.add, n, 0, newNum⟩ ::
        fallbackWalk os ns (oldNum + 1) (newNum + 1)

/-- The edit script of the fallback matcher (counters start at 1). -/
def fallbackOps (oldLines newLines : List JStr) : List DiffOp :=
  fallbackWalk oldLines newLines 1 1

/-- The matcher dispatch of `generateUnifiedDiff` (line 520): the LCS path
runs only when `oldLines.length * newLines.length ≤ 300000`, otherwise the
fallback matcher is used. -/
def generateDiffOps (oldLines newLines : List JStr) : List DiffOp :=
  if oldLines.length * newLines.length > 300000 then
    fallbackOps oldLines newLines
  else
    lcsOps oldLines newLines

/-- The lines carried by the `keep` and `del` ops of a script, in order. -/
def oldSide (ops : List DiffOp) : List JStr :=
  (ops.filter (fun op => op.kind ≠ OpKind.add)).map DiffOp.line

/-- The lines carried by the `keep` and `add` ops of a script, in order. -/
def newSide (ops : List DiffOp) : List JStr :=
  (ops.filter (fun op => op.kind ≠ OpKind.del)).map DiffOp.line

theorem oldSide_append (a b : List DiffOp) : oldSide (a ++ b) = oldSide a ++ oldSide b := by
  simp [oldSide]

theorem newSide_append (a b : List DiffOp) : newSide (a ++ b) = newSide a ++ newSide b := by
  simp [newSide]

theorem take_succ_of_lt {l : List JStr} {i : Nat} (h : i < l.length) :
    l.take (i + 1) = l.take i ++ [l.getD i []] := by
  rw [List.take_succ]
  simp [List.getElem?_eq_getElem h, List.getD_eq_getElem?_getD]

theorem lcsTraceback_sides (oldLines newLines : List JStr) :
    ∀ i j, i ≤ oldLines.length → j ≤ newLines.length →
      oldSide (lcsTraceback oldLines newLines i j) = oldLines.take i ∧
      newSide (lcsTraceback oldLines newLines i j) = newLines.take j := by
  intro i j
  induction i, j using lcsTraceback.induct oldLines newLines with
  | case1 =>
    intro _ _
    simp [lcsTraceback, oldSide, newSide]
  | case2 j ih =>
    intro hi hj
    have hj' : j < newLines.length := Nat.lt_of_succ_le hj
    obtain ⟨h1, h2⟩ := ih hi (Nat.le_of_lt hj')
    rw [lcsTraceback, oldSide_append, newSide_append, h1, h2,
      take_succ_of_lt hj']
    simp [oldSide, newSide]
  | case3 i ih =>
    intro hi hj
    have hi' : i < oldLines.length := Nat.lt_of_succ_le hi
    obtain ⟨h1, h2⟩ := ih (Nat.le_of_lt hi') hj
    rw [lcsTraceback, oldSide_append, newSide_append, h1, h2,
      take_succ_of_lt hi']
    simp [oldSide, newSide]
  | case4 i j heq ih =>
    intro hi hj
    have hi' : i < oldLines.length := Nat.lt_of_succ_le hi
    have hj' : j < newLines.length := Nat.lt_of_succ_le hj
    obtain ⟨h1, h2⟩ := ih (Nat.le_of_lt hi') (Nat.le_of_lt hj')
    rw [lcsTraceback, if_pos heq, oldSide_append, newSide_append, h1, h2,
      take_succ_of_lt hi', take_succ_of_lt hj']
    simp only [oldSide, newSide, List.filter_cons, List.filter_nil, List.map]
    refine ⟨by simp, ?_⟩
    simpa [List.getD_eq_getElem?_getD] using heq
  | case5 i j hne hle ih =>
    intro hi hj
    have hj' : j < newLines.length := Nat.lt_of_succ_le hj
    obtain ⟨h1, h2⟩ := ih hi (Nat.le_of_lt hj')
    rw [lcsTraceback, if_neg hne, if_pos hle, oldSide_append, newSide_append, h1, h2,
      take_succ_of_lt hj']
    simp [oldSide, newSide]
  | case6 i j hne hgt ih =>
    intro hi hj
    have hi' : i < oldLines.length := Nat.lt_of_succ_le hi
    obtain ⟨h1, h2⟩ := ih (Nat.le_of_lt hi') hj
    rw [lcsTraceback, if_neg hne, if_neg hgt, oldSide_append, newSide_append, h1, h2,
      take_succ_of_lt hi']
    simp [oldSide, newSide]

theorem fallbackWalk_sides :
    ∀ (oldLines newLines : List JStr) (oldNum newNum : Nat),
      oldSide (fallbackWalk oldLines newLines oldNum newNum) = oldLines ∧
      newSide (fallbackWalk oldLines newLines oldNum newNum) = newLines := by
  intro oldLines newLines oldNum newNum
  induction oldLines, newLines, oldNum, newNum using fallbackWalk.induct with
  | case1 => simp [fallbackWalk, oldSide, newSide]
  | case2 n ns oldNum newNum ih =>
    rw [fallbackWalk]
    simp only [oldSide, newSide, List.filter_cons, List.map_cons] at *
    simp_all
  | case3 o os oldNum newNum ih =>
    rw [fallbackWalk]
    simp only [oldSide, newSide, List.filter_cons, List.map_cons] at *
    simp_all
  | case4 os n ns oldNum newNum ih =>
    rw [fallbackWalk, if_pos rfl]
    simp only [oldSide, newSide, List.filter_cons, List.map_cons] at *
    simp_all
  | case5 o os n ns oldNum newNum hne ih =>
    rw [fallbackWalk, if_neg hne]
    simp only [oldSide, newSide, List.filter_cons, List.map_cons] at *
    simp_all

/-- Claim C1: round-trip of the edit script.  For every pair of line
sequences, the script produced by either matcher (the LCS traceback, the
fallback walk) and by the size-dispatching `generateDiffOps` replays to the
inputs: the `keep`+`del` ops carry exactly `oldLines`, and the `keep`+`add`
ops carry exactly `newLines`. -/
theorem c1_edit_script_roundtrip (oldLines newLines : List JStr) :
    oldSide (lcsOps oldLines newLines) = oldLines ∧
    newSide (lcsOps oldLines newLines) = newLines ∧
    oldSide (fallbackOps oldLines newLines) = oldLines ∧
    newSide (fallbackOps oldLines newLines) = newLines ∧
    oldSide (generateDiffOps oldLines newLines) = oldLines ∧
    newSide (generateDiffOps oldLines newLines) = newLines := by
  have hl := lcsTraceback_sides oldLines newLines oldLines.length newLines.length
    (Nat.le_refl _) (Nat.le_refl _)
  have hf := fallbackWalk_sides oldLines newLines 1 1
  rw [List.take_length, List.take_length] at hl
  refine ⟨hl.1, hl.2, hf.1, hf.2, ?_, ?_⟩ <;>
    · unfold generateDiffOps
      split
      · simp [fallbackOps, hf.1, hf.2]
      · simp [lcsOps, hl.1, hl.2]

/-- Length of a longest common subsequence of two line sequences, by the
textbook recurrence.  This is the specification-side notion of
`LCS_length`; it is independent of the DP table transcribed from the
source and is related to it below. -/
def lcsLen : List JStr → List JStr → Nat
  | [], _ => 0
  | _ :: _, [] => 0
  | a :: as, b :: bs =>
    if a = b then lcsLen as bs + 1
    else max (lcsLen (a :: as) bs) (lcsLen as (b :: bs))
termination_by xs ys => xs.length + ys.length

theorem lcsLen_nil_right (xs : List JStr) : lcsLen xs [] = 0 := by
  cases xs <;> rw [lcsLen]

/-- `lcsLen` is attained by some common subsequence. -/
theorem lcsLen_exists (xs ys : List JStr) :
    ∃ zs : List JStr, zs.Sublist xs ∧ zs.Sublist ys ∧ zs.length = lcsLen xs ys := by
  induction xs, ys using lcsLen.induct with
  | case1 ys => exact ⟨[], List.nil_sublist _, List.nil_sublist _, by simp [lcsLen]⟩
  | case2 a as => exact ⟨[], List.nil_sublist _, List.nil_sublist _, by simp [lcsLen_nil_right]⟩
  | case3 as b bs ih =>
    obtain ⟨zs, hz1, hz2, hz3⟩ := ih
    exact ⟨b :: zs, hz1.cons₂ b, hz2.cons₂ b, by rw [lcsLen, if_pos rfl]; simp [hz3]⟩
  | case4 a as b bs hne ih1 ih2 =>
    obtain ⟨zs1, h11, h12, h13⟩ := ih1
    obtain ⟨zs2, h21, h22, h23⟩ := ih2
    rw [lcsLen, if_neg hne]
    rcases Nat.le_total (lcsLen (a :: as) bs) (lcsLen as (b :: bs)) with hle | hle
    · exact ⟨zs2, h21.cons a, h22, by rw [h23, Nat.max_eq_right hle]⟩
    · exact ⟨zs1, h11, h12.cons b, by rw [h13, Nat.max_eq_left hle]⟩

/-- `lcsLen` bounds every common subsequence. -/
theorem lcsLen_ge (xs ys : List JStr) :
    ∀ zs : List JStr, zs.Sublist xs → zs.Sublist ys → zs.length ≤ lcsLen xs ys := by
  induction xs, ys using lcsLen.induct with
  | case1 ys =>
    intro zs hz1 _
    rw [List.sublist_nil] at hz1
    simp [hz1]
  | case2 a as =>
    intro zs _ hz2
    rw [List.sublist_nil] at hz2
    simp [hz2]
  | case3 as b bs ih =>
    intro zs hz1 hz2
    rw [lcsLen, if_pos rfl]
    match zs with
    | [] => simp
    | c :: zs' =>
      have h1 : zs'.Sublist as := by
        rcases List.sublist_cons_iff.mp hz1 with h | ⟨r, hr, hrs⟩
        · exact (List.sublist_cons_self c zs').trans h
        · cases hr; exact hrs
      have h2 : zs'.Sublist bs := by
        rcases List.sublist_cons_iff.mp hz2 with h | ⟨r, hr, hrs⟩
        · exact (List.sublist_cons_self c zs').trans h
        · cases hr; exact hrs
      simpa using Nat.add_le_add_right (ih zs' h1 h2) 1
  | case4 a as b bs hne ih1 ih2 =>
    intro zs hz1 hz2
    rw [lcsLen, if_neg hne]
    rcases List.sublist_cons_iff.mp hz2 with h | ⟨r, hr, hrs⟩
    · exact Nat.le_trans (ih1 zs hz1 h) (Nat.le_max_left _ _)
    · subst hr
      rcases List.sublist_cons_iff.mp hz1 with h' | ⟨r', hr', _⟩
      · exact Nat.le_trans (ih2 (b :: r) h' hz2) (Nat.le_max_right _ _)
      · injection hr' with hba _
        exact absurd hba.symm hne

theorem lcsLen_reverse (xs ys : List JStr) :
    lcsLen xs.reverse ys.reverse = lcsLen xs ys := by
  apply Nat.le_antisymm
  · obtain ⟨zs, h1, h2, h3⟩ := lcsLen_exists xs.reverse ys.reverse
    have h1' : zs.reverse.Sublist xs := by
      rw [← List.reverse_sublist]
      simpa using h1
    have h2' : zs.reverse.Sublist ys := by
      rw [← List.reverse_sublist]
      simpa using h2
    have := lcsLen_ge xs ys zs.reverse h1' h2'
    simpa [h3] using this
  · obtain ⟨zs, h1, h2, h3⟩ := lcsLen_exists xs ys
    have := lcsLen_ge xs.reverse ys.reverse zs.reverse (h1.reverse) (h2.reverse)
    simpa [h3] using this

theorem reverse_take_succ {l : List JStr} {i : Nat} (h : i < l.length) :
    (l.take (i + 1)).reverse = l.getD i [] :: (l.take i).reverse := by
  rw [take_succ_of_lt h, List.reverse_append]
  simp

/-- The DP table computes the LCS length of the corresponding prefixes. -/
theorem lcsTable_eq_lcsLen (oldLines newLines : List JStr) :
    ∀ i j, i ≤ oldLines.length → j ≤ newLines.length →
      lcsTable oldLines newLines i j =
        lcsLen ((oldLines.take i).reverse) ((newLines.take j).reverse) := by
  intro i j
  induction i, j using lcsTable.induct oldLines newLines with
  | case1 j =>
    intro _ _
    simp [lcsTable, lcsLen]
  | case2 i =>
    intro _ _
    simp [lcsTable, lcsLen_nil_right]
  | case3 i j heq ih =>
    intro hi hj
    have hi' : i < oldLines.length := Nat.lt_of_succ_le hi
    have hj' : j < newLines.length := Nat.lt_of_succ_le hj
    rw [lcsTable, if_pos heq, reverse_take_succ hi', reverse_take_succ hj',
      lcsLen, if_pos heq, ih (Nat.le_of_lt hi') (Nat.le_of_lt hj')]
  | case4 i j hne ih1 ih2 =>
    intro hi hj
    have hi' : i < oldLines.length := Nat.lt_of_succ_le hi
    have hj' : j < newLines.length := Nat.lt_of_succ_le hj
    rw [lcsTable, if_neg hne, reverse_take_succ hi', reverse_take_succ hj',
      lcsLen, if_neg hne, ih1 (Nat.le_of_lt hi') hj, ih2 hi (Nat.le_of_lt hj'),
      ← reverse_take_succ hi', ← reverse_take_succ hj']
    exact Nat.max_comm _ _

/-- Number of ops of a script whose kind is not `keep` (total add+del count). -/
def nonKeepCount (ops : List DiffOp) : Nat :=
  (ops.filter (fun op => op.kind ≠ OpKind.keep)).length

theorem nonKeepCount_append (a b : List DiffOp) :
    nonKeepCount (a ++ b) = nonKeepCount a + nonKeepCount b := by
  simp [nonKeepCount]

/-- Along the whole traceback, non-keep ops and twice the table value at the
start cursors account exactly for the two prefix lengths. -/
theorem lcsTraceback_count (oldLines newLines : List JStr) :
    ∀ i j, nonKeepCount (lcsTraceback oldLines newLines i j) +
      2 * lcsTable oldLines newLines i j = i + j := by
  intro i j
  induction i, j using lcsTraceback.induct oldLines newLines with
  | case1 => simp [lcsTraceback, lcsTable, nonKeepCount]
  | case2 j ih =>
    rw [lcsTraceback, nonKeepCount_append]
    have ht : lcsTable oldLines newLines 0 (j + 1) = 0 := by rw [lcsTable]
    have ht' : lcsTable oldLines newLines 0 j = 0 := by
      cases j <;> rw [lcsTable]
    rw [ht] at *
    rw [ht'] at ih
    simp only [nonKeepCount, List.filter_cons, List.filter_nil] at *
    simp at *
    omega
  | case3 i ih =>
    rw [lcsTraceback, nonKeepCount_append]
    have ht : lcsTable oldLines newLines (i + 1) 0 = 0 := by rw [lcsTable]
    have ht' : lcsTable oldLines newLines i 0 = 0 := by
      cases i <;> rw [lcsTable]
    rw [ht] at *
    rw [ht'] at ih
    simp only [nonKeepCount, List.filter_cons, List.filter_nil] at *
    simp at *
    omega
  | case4 i j heq ih =>
    rw [lcsTraceback, if_pos heq, nonKeepCount_append]
    have ht : lcsTable oldLines newLines (i + 1) (j + 1) =
        lcsTable oldLines newLines i j + 1 := by
      rw [lcsTable, if_pos heq]
    rw [ht]
    simp only [nonKeepCount, List.filter_cons, List.filter_nil] at *
    simp at *
    omega
  | case5 i j hne hle ih =>
    rw [lcsTraceback, if_neg hne, if_pos hle, nonKeepCount_append]
    have ht : lcsTable oldLines newLines (i + 1) (j + 1) =
        lcsTable oldLines newLines (i + 1) j := by
      rw [lcsTable, if_neg hne, Nat.max_eq_right hle]
    rw [ht]
    simp only [nonKeepCount, List.filter_cons, List.filter_nil] at *
    simp at *
    omega
  | case6 i j hne hgt ih =>
    rw [lcsTraceback, if_neg hne, if_neg hgt, nonKeepCount_append]
    have ht : lcsTable oldLines newLines (i + 1) (j + 1) =
        lcsTable oldLines newLines i (j + 1) := by
      rw [lcsTable, if_neg hne, Nat.max_eq_left (Nat.le_of_not_le hgt)]
    rw [ht]
    simp only [nonKeepCount, List.filter_cons, List.filter_nil] at *
    simp at *
    omega

/-- Claim C2: LCS optimality.  Whenever `oldLines.length * newLines.length`
is at most the 300000 cost ceiling (so the LCS path is taken by the
dispatcher), the edit script contains exactly
`len(old) + len(new) - 2 * LCS_length(old, new)` non-keep ops. -/
theorem c2_lcs_optimality (oldLines newLines : List JStr)
    (h : oldLines.length * newLines.length ≤ 300000) :
    nonKeepCount (generateDiffOps oldLines newLines) =
      oldLines.length + newLines.length - 2 * lcsLen oldLines newLines := by
  have hcnt := lcsTraceback_count oldLines newLines oldLines.length newLines.length
  have htab := lcsTable_eq_lcsLen oldLines newLines oldLines.length newLines.length
    (Nat.le_refl _) (Nat.le_refl _)
  rw [List.take_length, List.take_length, lcsLen_reverse] at htab
  rw [generateDiffOps, if_neg (by omega)]
  unfold lcsOps
  omega

/-- Witness for claim C2 at `old = [a, b, c]`, `new = [a, x, c]`. -/
theorem c2_lcs_optimality_witness :
    (["a".toList, "b".toList, "c".toList].length *
      ["a".toList, "x".toList, "c".toList].length ≤ 300000) ∧
    nonKeepCount (generateDiffOps ["a".toList, "b".toList, "c".toList]
        ["a".toList, "x".toList, "c".toList]) =
      ["a".toList, "b".toList, "c".toList].length +
        ["a".toList, "x".toList, "c".toList].length -
        2 * lcsLen ["a".toList, "b".toList, "c".toList] ["a".toList, "x".toList, "c".toList] :=
  ⟨by decide, c2_lcs_optimality _ _ (by decide)⟩

/-- Model of `String.prototype.startsWith`: `leadsWith p s` is true when
`p` is an initial run of `s`. -/
def leadsWith : JStr → JStr → Bool
  | [], _ => true
  | _ :: _, [] => false
  | p :: ps, c :: cs => p = c && leadsWith ps cs

/-- Model of `String.prototype.indexOf` for a substring: index of the first
occurrence, `none` when absent (JS returns `-1`). -/
def indexOfSub (s pat : JStr) : Option Nat :=
  if leadsWith pat s then some 0
  else
    match s with
    | [] => none
    | _ :: cs => (indexOfSub cs pat).map (· + 1)

/-- Model of `String.prototype.includes`. -/
def containsSub (s pat : JStr) : Bool :=
  (indexOfSub s pat).isSome

/-- Model of `String.prototype.substring` (clamps to length, swaps
out-of-order arguments). -/
def substringJ (s : JStr) (a b : Nat) : JStr :=
  (s.take (max a b)).drop (min a b)

/-- Characters removed by `String.prototype.trim`. -/
def isJsWhitespace (c : Char) : Bool :=
  c = ' ' || c = '\t' || c = '\n' || c = '\r' || c = '\x0b' || c = '\x0c'

/-- Model of `String.prototype.trim`. -/
def jsTrim (s : JStr) : JStr :=
  ((s.dropWhile isJsWhitespace).reverse.dropWhile isJsWhitespace).reverse

/-- Model of `String.prototype.toLowerCase` (ASCII range). -/
def toLowerJ (s : JStr) : JStr := s.map Char.toLower

/-- The effect of the regex replace `/^\/+|\/+$/g`: strip every leading and
trailing slash. -/
def stripSlashes (s : JStr) : JStr :=
  ((s.dropWhile (· = '/')).reverse.dropWhile (· = '/')).reverse

/-- Transcription of `isPathInSkippedFolder` (azure-devops.ts 494-502):
the path with a single leading slash removed, compared case-insensitively
against each entry with its leading/trailing slashes stripped, matching
on equality or on the entry followed by `'/'`. -/
def isPathInSkippedFolder (filePath : JStr) (skipFolders : List JStr) : Bool :=
  let normalised := if leadsWith ['/'] filePath then filePath.drop 1 else filePath
  skipFolders.any fun folder =>
    let f := toLowerJ (stripSlashes folder)
    let n := toLowerJ normalised
    n = f || leadsWith (f ++ ['/']) n

/-- Claim C10: skip-folder matching is case-insensitive and respects
path-segment boundaries.  A path is excluded iff, after stripping the
path's leading slash and the entry's surrounding slashes and lowercasing
both, the path equals the entry or starts with the entry followed by a
slash; in particular entry `dist` does not exclude `distribution/app.js`,
while it does exclude `/DIST/app.js` regardless of case. -/
theorem c10_skip_folder_matching (filePath : JStr) (skipFolders : List JStr) :
    (isPathInSkippedFolder filePath skipFolders = true ↔
      ∃ folder ∈ skipFolders,
        toLowerJ (if leadsWith ['/'] filePath then filePath.drop 1 else filePath) =
            toLowerJ (stripSlashes folder) ∨
          leadsWith (toLowerJ (stripSlashes folder) ++ ['/'])
            (toLowerJ (if leadsWith ['/'] filePath then filePath.drop 1 else filePath)) = true) ∧
    isPathInSkippedFolder "distribution/app.js".toList ["dist".toList] = false ∧
    isPathInSkippedFolder "/DIST/app.js".toList ["dist".toList] = true := by
  refine ⟨?_, by decide, by decide⟩
  unfold isPathInSkippedFolder
  rw [List.any_eq_true]
  constructor
  · rintro ⟨folder, hmem, hf⟩
    simp only [Bool.or_eq_true, decide_eq_true_eq] at hf
    exact ⟨folder, hmem, hf⟩
  · rintro ⟨folder, hmem, hf⟩
    refine ⟨folder, hmem, ?_⟩
    simpa only [Bool.or_eq_true, decide_eq_true_eq] using hf

/-- Decimal digit characters, as produced by JavaScript number-to-string
conversion. -/
def digitChar : Nat → Char
  | 0 => '0'
  | 1 => '1'
  | 2 => '2'
  | 3 => '3'
  | 4 => '4'
  | 5 => '5'
  | 6 => '6'
  | 7 => '7'
  | 8 => '8'
  | _ => '9'

/-- Decimal digit test (`\d` / the digits accepted by `parseInt`). -/
def isDigitJ (c : Char) : Bool := '0' ≤ c && c ≤ '9'

/-- Numeric value of a decimal digit character. -/
def digitVal (c : Char) : Nat := c.toNat - 48

/-- Decimal digit expansion with explicit structural fuel (the fuel is
always sufficient at the call below). -/
def natDigitsAux : Nat → Nat → JStr
  | 0, _ => []
  | fuel + 1, n =>
    if n < 10 then [digitChar n]
    else natDigitsAux fuel (n / 10) ++ [digitChar (n % 10)]

/-- Model of JavaScript decimal rendering of a non-negative integer,
as in template interpolation of a number. -/
def natDigits (n : Nat) : JStr := natDigitsAux (n + 1) n

/-- The characters matched by `.` in a JavaScript regex (no line
terminators). -/
def isDotChar (c : Char) : Bool :=
  c ≠ '\n' && c ≠ '\r' && c.toNat ≠ 0x2028 && c.toNat ≠ 0x2029

/-- The change-kind alternatives of `FILE_SECTION_RE` in review.ts. -/
def sectionKinds : List JStr :=
  ["Add".toList, "Edit".toList, "Delete".toList, "Rename".toList,
   "Change".toList, "SourceRename".toList]

/-- Whether `FILE_SECTION_RE` matches at the start of `s`. -/
def sectionStartsHere (s : JStr) : Bool :=
  sectionKinds.any fun kind =>
    leadsWith ("\n## ".toList ++ kind ++ ": ".toList) s

/-- Index of the first `FILE_SECTION_RE` match (`diff.search`). -/
def findFirstSection : JStr → Option Nat
  | [] => none
  | s@(_ :: cs) =>
    if sectionStartsHere s then some 0
    else (findFirstSection cs).map (· + 1)

/-- The split on the lookahead regex in `filterDiffToFiles`: a new segment
starts at every interior position where `FILE_SECTION_RE` matches. -/
def splitSectionsGo (cur : JStr) : JStr → List JStr
  | [] => [cur.reverse]
  | c :: cs =>
    if sectionStartsHere (c :: cs) && cur ≠ [] then
      cur.reverse :: splitSectionsGo [c] cs
    else
      splitSectionsGo (c :: cur) cs

/-- Model of `body.split(/(?=\n## (?:…): )/)`. -/
def splitSections (s : JStr) : List JStr := splitSectionsGo [] s

/-- The capture of `section.match(/\n## (?:…): (.+)/)` when the pattern
matches at the start of `s`: the non-empty run of `.`-characters after the
kind marker. -/
def sectionMatchHere (s : JStr) : Option JStr :=
  sectionKinds.findSome? fun kind =>
    let pat := "\n## ".toList ++ kind ++ ": ".toList
    if leadsWith pat s then
      let captured := (s.drop pat.length).takeWhile isDotChar
      if captured ≠ [] then some captured else none
    else none

/-- First match of `/\n## (?:…): (.+)/` anywhere in a segment, returning
the captured path text. -/
def sectionMatch : JStr → Option JStr
  | [] => none
  | s@(_ :: cs) =>
    match sectionMatchHere s with
    | some path => some path
    | none => sectionMatch cs

/-- The literal prefix of the `Files changed: \d+` counter. -/
def filesChangedLit : JStr := "Files changed: ".toList

/-- First index where `/Files changed: \d+/` matches. -/
def findFilesChanged : JStr → Option Nat
  | [] => none
  | s@(_ :: cs) =>
    if leadsWith filesChangedLit s &&
        (s.drop filesChangedLit.length).takeWhile isDigitJ ≠ [] then some 0
    else (findFilesChanged cs).map (· + 1)

/-- Model of `header.replace(/Files changed: \d+/, `...${n}`)`: the first
match (literal plus its maximal digit run) is replaced by the literal and
the decimal rendering of `n`. -/
def replaceFilesChanged (s : JStr) (n : Nat) : JStr :=
  match findFilesChanged s with
  | none => s
  | some p =>
    let after := s.drop (p + filesChangedLit.length)
    s.take p ++ filesChangedLit ++ natDigits n ++ after.dropWhile isDigitJ

/-- Transcription of `filterDiffToFiles` (review.ts 489-511): keep only
the file sections whose captured, trimmed path is in `filePaths`; preserve
the header and rewrite its file counter.  The JS `Set` is modelled by its
member list (only emptiness and membership are consulted). -/
def filterDiffToFiles (diff : JStr) (filePaths : List JStr) : JStr :=
  if filePaths.length = 0 then diff
  else
    match findFirstSection diff with
    | none => diff
    | some firstSection =>
      let header := diff.take firstSection
      let body := diff.drop firstSection
      let sections := splitSections body
      let kept := sections.filter fun s =>
        match sectionMatch s with
        | some path => filePaths.contains (jsTrim path)
        | none => false
      replaceFilesChanged header kept.length ++ kept.flatten

/-- The three run modes distinguished by `reviewCommand`. -/
inductive ReviewMode where
  | Full
  | Incremental
  | SkipNoNewWork
deriving DecidableEq, Repr

/-- Outcome of the pre-review decision logic of `reviewCommand`. -/
structure ReviewDecision where
  mode : ReviewMode
  newCommits : List JStr
  diffToReview : JStr
deriving DecidableEq, Repr

/-- Transcription of review.ts line 130: commits of the PR not contained
in the aggregated reviewed-commit list. -/
def computeNewCommits (allCommits reviewedCommits : List JStr) : List JStr :=
  allCommits.filter fun c => !(reviewedCommits.contains c)

/-- The incremental scoping step (review.ts 206-231): when reviewing
incrementally with a proper non-empty subset of new commits, scope the
diff to the files changed in those commits, but fall back to the full diff
when no changed files are reported or the scoped diff has no `"## "`. -/
def scopeStep (incremental : Bool) (newCommits allCommits : List JStr)
    (diff : JStr) (changedFiles : List JStr) : ReviewDecision :=
  if incremental = true ∧ 0 < newCommits.length ∧ newCommits.length < allCommits.length then
    if 0 < changedFiles.length then
      let scopedDiff := filterDiffToFiles diff changedFiles
      if containsSub scopedDiff "## ".toList then
        ⟨ReviewMode.Incremental, newCommits, scopedDiff⟩
      else
        ⟨ReviewMode.Full, newCommits, diff⟩
    else
      ⟨ReviewMode.Full, newCommits, diff⟩
  else
    ⟨ReviewMode.Full, newCommits, diff⟩

/-- Transcription of the decision flow of `reviewCommand`
(review.ts 113-158 together with 206-231): aggregate reviewed commits from
all Berean comments, compute the unreviewed commits, exit early
(`SkipNoNewWork`) when a prior review exists and nothing is new, and
otherwise run the scoping step.  Each comment is represented by its
embedded reviewed-commit list. -/
def reviewDecision (skipIfReviewed incremental : Bool)
    (bereanComments : List (List JStr)) (allCommits : List JStr)
    (diff : JStr) (changedFiles : List JStr) : ReviewDecision :=
  if skipIfReviewed = true ∨ incremental = true then
    if 0 < bereanComments.length then
      let reviewedCommits := bereanComments.flatMap id
      let newCommits := computeNewCommits allCommits reviewedCommits
      if skipIfReviewed = true ∧ newCommits.length = 0 then
        ⟨ReviewMode.SkipNoNewWork, newCommits, diff⟩
      else if incremental = true ∧ newCommits.length = 0 then
        ⟨ReviewMode.SkipNoNewWork, newCommits, diff⟩
      else
        scopeStep incremental newCommits allCommits diff changedFiles
    else
      scopeStep incremental allCommits allCommits diff changedFiles
  else
    scopeStep incremental allCommits allCommits diff changedFiles

/-- Claim C3: new-commit computation.  `computeNewCommits` is `allCommits`
with every reviewed id removed and order preserved (it is the order-
preserving sublist of exactly the unreviewed ids), and on
`allCommitIds = [c1, c2, c3]` with `reviewedCommitIds = [c1, c2]` it
returns exactly `[c3]`. -/
theorem c3_new_commit_computation (allCommits reviewedCommits : List JStr) :
    (computeNewCommits allCommits reviewedCommits).Sublist allCommits ∧
    (∀ c, c ∈ computeNewCommits allCommits reviewedCommits ↔
      c ∈ allCommits ∧ c ∉ reviewedCommits) ∧
    computeNewCommits ["c1".toList, "c2".toList, "c3".toList]
      ["c1".toList, "c2".toList] = ["c3".toList] := by
  refine ⟨List.filter_sublist _, ?_, by decide⟩
  intro c
  simp [computeNewCommits, List.mem_filter, List.elem_iff]

/-- Claim C4: skip decision.  With `--skip-if-reviewed` or `--incremental`
enabled, at least one prior Berean comment, and every PR commit already
covered by the aggregated reviewed commits, the run mode is
`SkipNoNewWork`. -/
theorem c4_skip_decision (skipIfReviewed incremental : Bool)
    (bereanComments : List (List JStr)) (allCommits : List JStr)
    (diff : JStr) (changedFiles : List JStr)
    (hopt : skipIfReviewed = true ∨ incremental = true)
    (hprior : bereanComments ≠ [])
    (hcov : ∀ c ∈ allCommits, c ∈ bereanComments.flatMap id) :
    (reviewDecision skipIfReviewed incremental bereanComments allCommits
      diff changedFiles).mode = ReviewMode.SkipNoNewWork := by
  have hnew : computeNewCommits allCommits (bereanComments.flatMap id) = [] := by
    rw [computeNewCommits, List.filter_eq_nil_iff]
    intro c hc
    simp only [List.elem_iff, Bool.not_eq_true', Bool.not_eq_false]
    simpa [List.elem_iff] using hcov c hc
  rw [reviewDecision, if_pos hopt,
    if_pos (by cases bereanComments with
      | nil => exact absurd rfl hprior
      | cons a l => simp)]
  rcases hopt with hs | hi
  · rw [if_pos ⟨hs, by rw [hnew]; rfl⟩]
  · by_cases hs : skipIfReviewed = true ∧
      (computeNewCommits allCommits (bereanComments.flatMap id)).length = 0
    · rw [if_pos hs]
    · rw [if_neg hs, if_pos ⟨hi, by rw [hnew]; rfl⟩]

/-- Witness for claim C4: one prior comment covering both commits of the
PR, with `--skip-if-reviewed` enabled. -/
theorem c4_skip_decision_witness :
    ((true : Bool) = true ∨ (false : Bool) = true) ∧
    ([["c1".toList, "c2".toList]] : List (List JStr)) ≠ [] ∧
    (∀ c ∈ ["c1".toList, "c2".toList],
      c ∈ ([["c1".toList, "c2".toList]] : List (List JStr)).flatMap id) ∧
    (reviewDecision true false [["c1".toList, "c2".toList]]
      ["c1".toList, "c2".toList] [] []).mode = ReviewMode.SkipNoNewWork :=
  ⟨Or.inl rfl, by decide, by decide,
    c4_skip_decision true false [["c1".toList, "c2".toList]]
      ["c1".toList, "c2".toList] [] [] (Or.inl rfl) (by decide) (by decide)⟩

/-- Number of positions at which a file-section header pattern occurs. -/
def countFileSections : JStr → Nat
  | [] => 0
  | s@(_ :: cs) => (if sectionStartsHere s then 1 else 0) + countFileSections cs

/-- A concrete assembled diff whose header (the PR description) contains
the two-hash marker `"## "`, with a single file section for `/a.ts`. -/
def emptyScopeDiff : JStr :=
  "# Pull Request: t\nDescription: ## notes\nFiles changed: 1\n\n---\n\n## Edit: /a.ts\n@@ -1 +1 @@\n- x\n+ y".toList

/-- Claim C7: empty-scope fallback.  `filterDiffToFiles` with an empty
path set does return its input unchanged; but the caller's fallback test
(`scoped.includes('## ')`) misfires on this input: scoping to a file set
touching none of the sections yields a document with zero file sections,
yet the run still uses it (mode `Incremental`) instead of falling back to
the full document, because the description text contains `"## "`.  This
contradicts the code's own comment ("Only use the scoped diff if it
contains actual file sections") and the specified fallback behaviour. -/
theorem c7_empty_scope_fallback_bug :
    (∀ diff : JStr, filterDiffToFiles diff [] = diff) ∧
    countFileSections (reviewDecision false true [["c1".toList]]
      ["c1".toList, "c2".toList] emptyScopeDiff ["/b.ts".toList]).diffToReview = 0 ∧
    (reviewDecision false true [["c1".toList]]
      ["c1".toList, "c2".toList] emptyScopeDiff ["/b.ts".toList]).mode =
      ReviewMode.Incremental ∧
    (reviewDecision false true [["c1".toList]]
      ["c1".toList, "c2".toList] emptyScopeDiff ["/b.ts".toList]).diffToReview ≠
      emptyScopeDiff := by
  refine ⟨fun diff => rfl, by decide, by decide, by decide⟩

/-- File-count cap of the change-set assembler (`MAX_FILES`). -/
def MAX_FILES : Nat := 40

/-- Per-file diff budget (`MAX_FILE_CHARS`). -/
def MAX_FILE_CHARS : Nat := 8000

/-- Per-file cap for the auxiliary full-content context
(`MAX_FULL_FILE_CHARS`). -/
def MAX_FULL_FILE_CHARS : Nat := 15000

/-- Total-character ceiling (`MAX_TOTAL_CONTEXT_CHARS`). -/
def MAX_TOTAL_CONTEXT_CHARS : Nat := 120000

/-- The section-assembly step of `fetchPRDiff` (azure-devops.ts 386-390):
all produced file sections are joined unconditionally; a notice is added
only when the file-count cap (not a character budget) was exceeded. -/
def assembleSections (fileSections : List JStr) (changeEntriesCount : Nat) : JStr :=
  fileSections.flatten ++
    (if changeEntriesCount > MAX_FILES then
      "\n---\n⚠️ ".toList ++ natDigits (changeEntriesCount - MAX_FILES) ++
        " files not shown (limit: 40)\n".toList
    else [])

/-- The context-collection fold of `fetchPRDiff` (azure-devops.ts 358-374):
for each processed file the (optional) fetched full content is added to the
context only when it is non-empty, at most `MAX_FULL_FILE_CHARS` long, and
keeps the running total within `MAX_TOTAL_CONTEXT_CHARS`; otherwise it is
silently dropped.  The fold returns the kept contents and the final total.
(The JS updates happen sequentially on the event loop; the batch order is
modelled as the list order, which no stated property depends on.) -/
def collectContext : List (Option JStr) → Nat → List JStr × Nat
  | [], total => ([], total)
  | none :: rest, total => collectContext rest total
  | some content :: rest, total =>
    if content ≠ [] ∧ content.length ≤ MAX_FULL_FILE_CHARS ∧
        total + content.length ≤ MAX_TOTAL_CONTEXT_CHARS then
      (content :: (collectContext rest (total + content.length)).1,
        (collectContext rest (total + content.length)).2)
    else
      collectContext rest total

/-- Counterexample to claim C5 as stated: sixteen file sections of 8000
characters each (each within the per-file budget) assemble to a 128000-
character document body — the join imposes no total-character ceiling and
substitutes no truncation notice. -/
theorem c5_counterexample :
    ¬ (assembleSections (List.replicate 16 (List.replicate 8000 'a')) 16).length ≤
        MAX_TOTAL_CONTEXT_CHARS ∧
    assembleSections (List.replicate 16 (List.replicate 8000 'a')) 16 =
      (List.replicate 16 (List.replicate 8000 'a')).flatten := by
  constructor
  · intro h
    rw [assembleSections, if_neg (by simp [MAX_FILES]), List.append_nil,
      List.length_flatten, List.map_replicate, List.length_replicate,
      List.sum_replicate, MAX_TOTAL_CONTEXT_CHARS] at h
    simp at h
  · rw [assembleSections, if_neg (by simp [MAX_FILES]), List.append_nil]

theorem collectContext_spec :
    ∀ (contents : List (Option JStr)) (total : Nat),
      total ≤ MAX_TOTAL_CONTEXT_CHARS →
      (collectContext contents total).2 ≤ MAX_TOTAL_CONTEXT_CHARS ∧
      (collectContext contents total).2 =
        total + ((collectContext contents total).1.map List.length).sum ∧
      ∀ f ∈ (collectContext contents total).1,
        f.length ≤ MAX_FULL_FILE_CHARS ∧ f ≠ [] := by
  intro contents
  induction contents with
  | nil => intro total htot; simpa [collectContext] using htot
  | cons c rest ih =>
    intro total htot
    match c with
    | none => simpa [collectContext] using ih total htot
    | some content =>
      rw [collectContext]
      by_cases hc : content ≠ [] ∧ content.length ≤ MAX_FULL_FILE_CHARS ∧
          total + content.length ≤ MAX_TOTAL_CONTEXT_CHARS
      · rw [if_pos hc]
        obtain ⟨ih1, ih2, ih3⟩ := ih (total + content.length) hc.2.2
        refine ⟨ih1, ?_, ?_⟩
        · simpa [Nat.add_assoc] using ih2
        · intro f hf
          rcases List.mem_cons.mp hf with hf | hf
          · exact hf ▸ ⟨hc.2.1, hc.1⟩
          · exact ih3 f hf
      · rw [if_neg hc]
        exact ih total htot

/-- Claim C5 amended: in the code the ~120k total-character ceiling
governs the auxiliary full-file context collection, not the diff sections.
A file's content joins the context only when non-empty, at most 15000
characters, and within the remaining budget; files that do not fit are
silently omitted (no truncation notice), and the accumulated context total
never exceeds the ceiling and equals the sum of the kept contents. -/
theorem c5_amended_context_budget (contents : List (Option JStr)) :
    (collectContext contents 0).2 ≤ MAX_TOTAL_CONTEXT_CHARS ∧
    (collectContext contents 0).2 =
      ((collectContext contents 0).1.map List.length).sum ∧
    ∀ f ∈ (collectContext contents 0).1,
      f.length ≤ MAX_FULL_FILE_CHARS ∧ f ≠ [] := by
  obtain ⟨h1, h2, h3⟩ := collectContext_spec contents 0 (by simp [MAX_TOTAL_CONTEXT_CHARS])
  exact ⟨h1, by simpa using h2, h3⟩

/-- Context size of the hunk renderer (`CONTEXT`, renderHunks line 594). -/
def CONTEXT : Nat := 3

/-- The change-anchor indices of `renderHunks` (lines 595-598): indices of
the non-keep ops, in increasing order. -/
def changedIdxs (ops : List DiffOp) : List Nat :=
  (List.range ops.length).filter fun k => (ops.getD k default).kind ≠ OpKind.keep

/-- The window-merging loop of `renderHunks` (lines 607-617), carrying the
current window `(hStart, hEnd)`.  `Math.max(0, a - CONTEXT)` is truncated
subtraction. -/
def windowLoop (len : Nat) : List Nat → Nat → Nat → List (Nat × Nat)
  | [], hStart, hEnd => [(hStart, hEnd)]
  | a :: rest, hStart, hEnd =>
    if a - CONTEXT ≤ hEnd + 1 then
      windowLoop len rest hStart (min (len - 1) (a + CONTEXT))
    else
      (hStart, hEnd) :: windowLoop len rest (a - CONTEXT) (min (len - 1) (a + CONTEXT))

/-- The `hunks` array computed by `renderHunks` (lines 603-617). -/
def computeWindows (ops : List DiffOp) : List (Nat × Nat) :=
  match changedIdxs ops with
  | [] => []
  | a :: rest =>
    windowLoop ops.length rest (a - CONTEXT) (min (ops.length - 1) (a + CONTEXT))

/-- The header-number scans (lines 626-634): the first positive `oldNum`
(resp. `newNum`) in the window, defaulting to 1, over the `count` indices
starting at `k`. -/
def findStartNumAux (f : DiffOp → Nat) (ops : List DiffOp) : Nat → Nat → Nat
  | _, 0 => 1
  | k, count + 1 =>
    if f (ops.getD k default) > 0 then f (ops.getD k default)
    else findStartNumAux f ops (k + 1) count

/-- First positive line number in ops `k..stop`, defaulting to 1. -/
def findStartNum (f : DiffOp → Nat) (ops : List DiffOp) (k stop : Nat) : Nat :=
  findStartNumAux f ops k (stop + 1 - k)

/-- The `@@ -oldStart +newStart @@` hunk header (line 636). -/
def hunkHeader (ops : List DiffOp) (s e : Nat) : JStr :=
  "@@ -".toList ++ natDigits (findStartNum DiffOp.oldNum ops s e) ++
    " +".toList ++ natDigits (findStartNum DiffOp.newNum ops s e) ++ " @@".toList

/-- One rendered op line (lines 641-643): two-space marker for keep,
`"+ "` for add, `"- "` for del, then the line text. -/
def opLine (op : DiffOp) : JStr :=
  (if op.kind = OpKind.keep then "  ".toList
   else if op.kind = OpKind.add then "+ ".toList
   else "- ".toList) ++ op.line

/-- The inner rendering loop (lines 640-646) over `count` ops starting at
index `k`, stopping once the accumulated character count reaches the
budget; returns the rendered lines and the final count. -/
def renderOpsAux (ops : List DiffOp) (maxChars : Nat) : Nat → Nat → Nat → List JStr × Nat
  | _, 0, chars => ([], chars)
  | k, count + 1, chars =>
    if chars < maxChars then
      (opLine (ops.getD k default) ::
        (renderOpsAux ops maxChars (k + 1) count
          (chars + (opLine (ops.getD k default)).length + 1)).1,
        (renderOpsAux ops maxChars (k + 1) count
          (chars + (opLine (ops.getD k default)).length + 1)).2)
    else ([], chars)

/-- The outer rendering loop (lines 622-647): per window, break when the
budget is already reached, otherwise emit the header (counting
`header.length + 1`) and the window's op lines. -/
def renderHunksLoop (ops : List DiffOp) (maxChars : Nat) :
    List (Nat × Nat) → Nat → List JStr × Nat
  | [], chars => ([], chars)
  | (s, e) :: ws, chars =>
    if chars ≥ maxChars then ([], chars)
    else
      let header := hunkHeader ops s e
      let inner := renderOpsAux ops maxChars s (e + 1 - s) (chars + header.length + 1)
      let rest := renderHunksLoop ops maxChars ws inner.2
      (header :: inner.1 ++ rest.1, rest.2)

/-- The literal truncation marker (line 649). -/
def truncationNotice : JStr := "... (diff truncated)".toList

/-- Transcription of `renderHunks` (azure-devops.ts 590-651): empty output
when there is no non-keep op; otherwise the joined rendered lines, with
the truncation marker appended when the budget was reached. -/
def renderHunks (ops : List DiffOp) (maxChars : Nat) : JStr :=
  if changedIdxs ops = [] then []
  else
    let result := renderHunksLoop ops maxChars (computeWindows ops) 0
    List.intercalate ['\n']
      (if result.2 ≥ maxChars then result.1 ++ [truncationNotice] else result.1)

/-- Transcription of `generateUnifiedDiff` (lines 515-557) composed with
the dispatcher: split both contents into lines, produce the edit script by
the matcher selected by the cost ceiling, and render it. -/
def generateUnifiedDiff (oldContent newContent : JStr) (maxChars : Nat) : JStr :=
  renderHunks (generateDiffOps (oldContent.splitOn '\n') (newContent.splitOn '\n')) maxChars

/-- Specification-side expansion of a change anchor by `CONTEXT` ops both
ways, clamped to the script bounds. -/
def expandAnchor (len a : Nat) : Nat × Nat := (a - CONTEXT, min (len - 1) (a + CONTEXT))

/-- Specification-side merge of expanded windows that overlap or are
adjacent. -/
def mergeGo : Nat × Nat → List (Nat × Nat) → List (Nat × Nat)
  | cur, [] => [cur]
  | cur, (s, e) :: ws =>
    if s ≤ cur.2 + 1 then mergeGo (cur.1, max cur.2 e) ws
    else cur :: mergeGo (s, e) ws

/-- Specification-side window merging: fold the expanded anchor windows,
merging overlapping-or-adjacent neighbours. -/
def mergeWindows : List (Nat × Nat) → List (Nat × Nat)
  | [] => []
  | w :: ws => mergeGo w ws

theorem windowLoop_eq_mergeGo (len : Nat) :
    ∀ (idxs : List Nat) (hStart hEnd : Nat),
      idxs.Pairwise (· < ·) →
      (∀ b ∈ idxs, hEnd ≤ min (len - 1) (b + CONTEXT)) →
      windowLoop len idxs hStart hEnd =
        mergeGo (hStart, hEnd) (idxs.map (expandAnchor len)) := by
  intro idxs
  induction idxs with
  | nil => intro hStart hEnd _ _; rfl
  | cons a rest ih =>
    intro hStart hEnd hsort hinv
    have hrest : ∀ b ∈ rest, min (len - 1) (a + CONTEXT) ≤ min (len - 1) (b + CONTEXT) := by
      intro b hb
      have hab : a < b := (List.pairwise_cons.mp hsort).1 b hb
      exact min_le_min (Nat.le_refl _) (by omega)
    have hsort' := (List.pairwise_cons.mp hsort).2
    rw [windowLoop, List.map_cons, mergeGo]
    by_cases hc : a - CONTEXT ≤ hEnd + 1
    · rw [if_pos hc, if_pos (by simpa [expandAnchor] using hc)]
      have hmax : max hEnd (min (len - 1) (a + CONTEXT)) = min (len - 1) (a + CONTEXT) :=
        Nat.max_eq_right (hinv a (List.mem_cons_self a rest))
      rw [ih hStart (min (len - 1) (a + CONTEXT)) hsort' hrest]
      simp [expandAnchor, hmax]
    · rw [if_neg hc, if_neg (by simpa [expandAnchor] using hc)]
      rw [ih (a - CONTEXT) (min (len - 1) (a + CONTEXT)) hsort' hrest]
      simp [expandAnchor]

theorem changedIdxs_pairwise (ops : List DiffOp) : (changedIdxs ops).Pairwise (· < ·) :=
  (List.pairwise_lt_range ops.length).filter _

theorem computeWindows_eq_mergeWindows (ops : List DiffOp) :
    computeWindows ops = mergeWindows ((changedIdxs ops).map (expandAnchor ops.length)) := by
  rw [computeWindows]
  cases hidx : changedIdxs ops with
  | nil => rfl
  | cons a rest =>
    have hsort : (a :: rest).Pairwise (· < ·) := hidx ▸ changedIdxs_pairwise ops
    rw [List.map_cons, mergeWindows]
    have hinv : ∀ b ∈ rest, min (ops.length - 1) (a + CONTEXT) ≤
        min (ops.length - 1) (b + CONTEXT) := by
      intro b hb
      have hab : a < b := (List.pairwise_cons.mp hsort).1 b hb
      exact min_le_min (Nat.le_refl _) (by omega)
    exact windowLoop_eq_mergeGo ops.length rest (a - CONTEXT)
      (min (ops.length - 1) (a + CONTEXT)) (List.pairwise_cons.mp hsort).2 hinv

theorem changedIdxs_eq_nil_of_all_keep (ops : List DiffOp)
    (h : ∀ op ∈ ops, op.kind = OpKind.keep) : changedIdxs ops = [] := by
  rw [changedIdxs, List.filter_eq_nil_iff]
  intro k hk
  rw [List.mem_range] at hk
  simp [List.getD_eq_getElem?_getD, List.getElem?_eq_getElem hk,
    h _ (List.getElem_mem hk)]

/-- Cost in characters of rendering `count` ops starting at index `k`
(each line plus the counted newline). -/
def opsCost (ops : List DiffOp) (k count : Nat) : Nat :=
  ((List.range' k count).map fun i => (opLine (ops.getD i default)).length + 1).sum

/-- Total cost in characters of rendering the given windows. -/
def hunksCost (ops : List DiffOp) : List (Nat × Nat) → Nat
  | [] => 0
  | (s, e) :: ws =>
    (hunkHeader ops s e).length + 1 + opsCost ops s (e + 1 - s) + hunksCost ops ws

theorem renderOpsAux_of_budget (ops : List DiffOp) (maxChars : Nat) :
    ∀ (count k chars : Nat), chars + opsCost ops k count ≤ maxChars →
      renderOpsAux ops maxChars k count chars =
        ((List.range' k count).map fun i => opLine (ops.getD i default),
          chars + opsCost ops k count) := by
  intro count
  induction count with
  | zero => intro k chars _; simp [renderOpsAux, opsCost]
  | succ n ih =>
    intro k chars hbud
    have hcost : opsCost ops k (n + 1) =
        (opLine (ops.getD k default)).length + 1 + opsCost ops (k + 1) n := by
      rw [opsCost, List.range'_succ, List.map_cons, List.sum_cons, opsCost]
      try omega
    rw [renderOpsAux, if_pos (by omega),
      ih (k + 1) (chars + (opLine (ops.getD k default)).length + 1) (by omega),
      List.range'_succ, List.map_cons, Prod.mk.injEq]
    exact ⟨rfl, by omega⟩

theorem renderHunksLoop_of_budget (ops : List DiffOp) (maxChars : Nat) :
    ∀ (ws : List (Nat × Nat)) (chars : Nat), chars + hunksCost ops ws ≤ maxChars →
      renderHunksLoop ops maxChars ws chars =
        (ws.flatMap fun w => hunkHeader ops w.1 w.2 ::
          ((List.range' w.1 (w.2 + 1 - w.1)).map fun i => opLine (ops.getD i default)),
          chars + hunksCost ops ws) := by
  intro ws
  induction ws with
  | nil => intro chars _; simp [renderHunksLoop, hunksCost]
  | cons w rest ih =>
    intro chars hbud
    obtain ⟨s, e⟩ := w
    have hh : 0 < (hunkHeader ops s e).length + 1 := Nat.succ_pos _
    rw [hunksCost] at hbud
    rw [renderHunksLoop, if_neg (by omega)]
    rw [List.flatMap_cons]
    simp only
    rw [renderOpsAux_of_budget ops maxChars (e + 1 - s) s
      (chars + (hunkHeader ops s e).length + 1) (by omega)]
    rw [ih (chars + (hunkHeader ops s e).length + 1 + opsCost ops s (e + 1 - s)) (by omega),
      Prod.mk.injEq]
    exact ⟨rfl, by rw [hunksCost]; omega⟩

/-- Claim C9: hunk formation.  (1) The windows built by the renderer are
exactly the merge of the `CONTEXT`-expanded change anchors, where
overlapping-or-adjacent expanded windows coalesce (so changed runs within
twice the context merge into one hunk), in original index order.  (2) A
script with only keep ops renders as the empty string.  (3) Under a
sufficient character budget the rendered line list is exactly one hunk —
header plus its op lines — per merged window, in order. -/
theorem c9_hunk_formation :
    (∀ ops : List DiffOp,
      computeWindows ops = mergeWindows ((changedIdxs ops).map (expandAnchor ops.length))) ∧
    (∀ (ops : List DiffOp) (maxChars : Nat),
      (∀ op ∈ ops, op.kind = OpKind.keep) → renderHunks ops maxChars = []) ∧
    (∀ (ops : List DiffOp) (maxChars : Nat),
      hunksCost ops (computeWindows ops) < maxChars →
      renderHunks ops maxChars =
        List.intercalate ['\n']
          ((computeWindows ops).flatMap fun w => hunkHeader ops w.1 w.2 ::
            ((List.range' w.1 (w.2 + 1 - w.1)).map fun i => opLine (ops.getD i default)))) := by
  refine ⟨computeWindows_eq_mergeWindows, ?_, ?_⟩
  · intro ops maxChars h
    rw [renderHunks, if_pos (changedIdxs_eq_nil_of_all_keep ops h)]
  · intro ops maxChars hbud
    rw [renderHunks]
    by_cases hidx : changedIdxs ops = []
    · rw [if_pos hidx]
      have : computeWindows ops = [] := by rw [computeWindows, hidx]
      rw [this]
      rfl
    · rw [if_neg hidx]
      simp only
      rw [renderHunksLoop_of_budget ops maxChars (computeWindows ops) 0 (by omega)]
      rw [if_neg (by simp; omega)]

/-- The scenario-A edit script: keep a, del b, add x, keep c. -/
def scenarioAOps : List DiffOp :=
  [⟨OpKind.keep, ['a'], 1, 1⟩, ⟨OpKind.del, ['b'], 2, 0⟩,
   ⟨OpKind.add, ['x'], 0, 2⟩, ⟨OpKind.keep, ['c'], 3, 3⟩]

/-- Witness for claim C9: an all-keep script renders empty, and the
scenario-A script under a 1000-character budget renders one hunk per
merged window. -/
theorem c9_hunk_formation_witness :
    (∀ op ∈ [(⟨OpKind.keep, ['a'], 1, 1⟩ : DiffOp)], op.kind = OpKind.keep) ∧
    renderHunks [(⟨OpKind.keep, ['a'], 1, 1⟩ : DiffOp)] 1000 = [] ∧
    hunksCost scenarioAOps (computeWindows scenarioAOps) < 1000 ∧
    renderHunks scenarioAOps 1000 =
      List.intercalate ['\n']
        ((computeWindows scenarioAOps).flatMap fun w => hunkHeader scenarioAOps w.1 w.2 ::
          ((List.range' w.1 (w.2 + 1 - w.1)).map fun i =>
            opLine (scenarioAOps.getD i default))) :=
  ⟨by decide, c9_hunk_formation.2.1 _ 1000 (by decide), by decide,
    c9_hunk_formation.2.2 scenarioAOps 1000 (by decide)⟩

/-- Outcome of an awaited JavaScript step: a value, or a thrown
exception. -/
inductive JsOutcome (α : Type) where
  | ok (val : α)
  | thrown
deriving DecidableEq, Repr

/-- The parts of a fetch `Response` consumed by `fetchFileSection`: the
`ok` flag, the `status` code, and the result of `.json()` (itself a step
that may throw) whose optional `content` field carries the file text. -/
structure FetchResp where
  ok : Bool
  status : Nat
  json : JsOutcome (Option JStr)
deriving DecidableEq, Repr

/-- The `entry` argument of `fetchFileSection`:
`{ item?: { path }, path?, changeType? }`. -/
structure ChangeEntry where
  itemPath : Option JStr
  path : Option JStr
  changeType : Option Nat
deriving DecidableEq, Repr

/-- `entry.item?.path ?? entry.path`. -/
def entryPath (e : ChangeEntry) : Option JStr :=
  e.itemPath.orElse fun _ => e.path

/-- Transcription of `getChangeTypeName` (azure-devops.ts 504-507). -/
def getChangeTypeName (changeType : Option Nat) : JStr :=
  match changeType.getD 0 with
  | 1 => "Add".toList
  | 2 => "Edit".toList
  | 4 => "Delete".toList
  | 8 => "Rename".toList
  | 16 => "SourceRename".toList
  | _ => "Change".toList

/-- The `## <type>: <path>` section header (line 421). -/
def sectionHeader (entryType filePath : JStr) : JStr :=
  '\n' :: "## ".toList ++ entryType ++ ": ".toList ++ filePath ++ ['\n']

/-- The all-additions rendering of an added file (lines 446-451). -/
def renderAddSection (content : JStr) (maxChars : Nat) : JStr :=
  let truncated := substringJ content 0 maxChars
  "```diff\n".toList ++
    List.intercalate ['\n'] ((truncated.splitOn '\n').map fun l => "+ ".toList ++ l) ++
    (if truncated.length < content.length then "\n... (file truncated)".toList else []) ++
    "\n```\n".toList

/-- The degraded preview used when the old version cannot be fetched
(lines 474-477). -/
def renderPreview (content : JStr) (maxChars : Nat) : JStr :=
  let preview := substringJ content 0 maxChars
  "```\n".toList ++ preview ++
    (if preview.length < content.length then "\n... (truncated)".toList else []) ++
    "\n```\n".toList

/-- The `try` body of `fetchFileSection` (lines 423-478), producing the
text appended after the section header, with `Except.error` for a thrown
step.  In the source every return point appends to `section`, which at
every possible throw point still equals the bare header, so the body is
exactly the appended suffix. -/
def fetchFileSectionBody (entryType : JStr)
    (srcFetch oldFetch : JsOutcome FetchResp) (maxChars : Nat) : Except Unit JStr :=
  if entryType = "Delete".toList then
    Except.ok "(File deleted)\n".toList
  else
    match srcFetch with
    | JsOutcome.thrown => Except.error ()
    | JsOutcome.ok srcRes =>
      if srcRes.ok = false then
        Except.ok ("(Could not fetch content - ".toList ++
          natDigits srcRes.status ++ ")\n".toList)
      else
        match srcRes.json with
        | JsOutcome.thrown => Except.error ()
        | JsOutcome.ok none => Except.ok "(Binary or empty file)\n".toList
        | JsOutcome.ok (some content) =>
          if content = [] then Except.ok "(Binary or empty file)\n".toList
          else if entryType = "Add".toList then
            Except.ok (renderAddSection content maxChars)
          else
            match oldFetch with
            | JsOutcome.thrown => Except.error ()
            | JsOutcome.ok oldRes =>
              if oldRes.ok = true then
                match oldRes.json with
                | JsOutcome.thrown => Except.error ()
                | JsOutcome.ok oldContent =>
                  if generateUnifiedDiff (oldContent.getD []) content maxChars ≠ [] then
                    Except.ok ("```diff\n".toList ++
                      generateUnifiedDiff (oldContent.getD []) content maxChars ++
                      "\n```\n".toList)
                  else
                    Except.ok "(No text changes detected)\n".toList
              else
                Except.ok (renderPreview content maxChars)

/-- Transcription of `fetchFileSection` (azure-devops.ts 408-484): empty
string when the entry has no path; otherwise the section header followed
by the try body, with the catch handler (lines 479-481) turning any thrown
step into the degraded-fetch annotation for this file only. -/
def fetchFileSection (entry : ChangeEntry)
    (srcFetch oldFetch : JsOutcome FetchResp) (maxChars : Nat) : JStr :=
  match entryPath entry with
  | none => []
  | some filePath =>
    match fetchFileSectionBody (getChangeTypeName entry.changeType) srcFetch oldFetch maxChars with
    | Except.ok body =>
      sectionHeader (getChangeTypeName entry.changeType) filePath ++ body
    | Except.error _ =>
      sectionHeader (getChangeTypeName entry.changeType) filePath ++
        "(Error fetching content)\n".toList

theorem leadsWith_append_self (p t : JStr) : leadsWith p (p ++ t) = true := by
  induction p with
  | nil => rfl
  | cons c cs ih => simp [leadsWith, ih]

/-- Claim C8: per-file failure isolation.  For every changed-file entry
and any fetch outcomes (including thrown exceptions), `fetchFileSection`
returns a section string: empty when the entry carries no path, otherwise
one beginning with that file's header; when the source-content fetch
throws (and the entry is not a deletion) the section carries exactly the
degraded-fetch annotation.  Mapping the resolver over any entry list
therefore yields one section per entry — no exception propagates to
siblings. -/
theorem c8_per_file_failure_isolation
    (entry : ChangeEntry) (srcFetch oldFetch : JsOutcome FetchResp) (maxChars : Nat) :
    (∀ filePath, entryPath entry = some filePath →
      leadsWith (sectionHeader (getChangeTypeName entry.changeType) filePath)
        (fetchFileSection entry srcFetch oldFetch maxChars) = true) ∧
    (entryPath entry = none → fetchFileSection entry srcFetch oldFetch maxChars = []) ∧
    (∀ filePath, entryPath entry = some filePath →
      getChangeTypeName entry.changeType ≠ "Delete".toList →
      srcFetch = JsOutcome.thrown →
      fetchFileSection entry srcFetch oldFetch maxChars =
        sectionHeader (getChangeTypeName entry.changeType) filePath ++
          "(Error fetching content)\n".toList) ∧
    (∀ (entries : List ChangeEntry) (src old : ChangeEntry → JsOutcome FetchResp),
      (entries.map fun e => fetchFileSection e (src e) (old e) maxChars).length =
        entries.length) := by
  refine ⟨?_, ?_, ?_, ?_⟩
  · intro filePath hp
    rw [fetchFileSection, hp]
    match fetchFileSectionBody (getChangeTypeName entry.changeType) srcFetch oldFetch maxChars with
    | Except.ok body => exact leadsWith_append_self _ _
    | Except.error _ => exact leadsWith_append_self _ _
  · intro hp
    rw [fetchFileSection, hp]
  · intro filePath hp hdel hthrown
    subst hthrown
    have hbody : fetchFileSectionBody (getChangeTypeName entry.changeType)
        JsOutcome.thrown oldFetch maxChars = Except.error () := by
      rw [fetchFileSectionBody.eq_def, if_neg hdel]
    rw [fetchFileSection, hp, hbody]
  · intro entries src old
    exact List.length_map _ _

/-- Witness for claim C8: an `Edit` entry whose source-content fetch
throws yields exactly the degraded section, and a sibling list still maps
to one section per entry. -/
theorem c8_per_file_failure_isolation_witness :
    (entryPath ⟨some "/a.ts".toList, none, some 2⟩ = some "/a.ts".toList) ∧
    (getChangeTypeName (some 2) ≠ "Delete".toList) ∧
    fetchFileSection ⟨some "/a.ts".toList, none, some 2⟩ JsOutcome.thrown
        (JsOutcome.ok ⟨true, 200, JsOutcome.ok none⟩) 8000 =
      sectionHeader (getChangeTypeName (some 2)) "/a.ts".toList ++
        "(Error fetching content)\n".toList :=
  ⟨by decide, by decide,
    (c8_per_file_failure_isolation ⟨some "/a.ts".toList, none, some 2⟩
        JsOutcome.thrown (JsOutcome.ok ⟨true, 200, JsOutcome.ok none⟩) 8000).2.2.1
      "/a.ts".toList (by decide) (by decide) rfl⟩

/-- `BEREAN_TAG` (azure-devops.ts 671). -/
def BEREAN_TAG : JStr := "<!-- berean-review -->".toList

/-- `BEREAN_COMMITS_START` (line 672). -/
def BEREAN_COMMITS_START : JStr := "<!-- berean-commits:".toList

/-- `BEREAN_COMMITS_END` (line 673). -/
def BEREAN_COMMITS_END : JStr := ":berean-commits -->".toList

/-- `BEREAN_ITERATION_START` (line 674). -/
def BEREAN_ITERATION_START : JStr := "<!-- berean-iteration:".toList

/-- `BEREAN_ITERATION_END` (line 675). -/
def BEREAN_ITERATION_END : JStr := ":berean-iteration -->".toList

/-- The maximal digit run at the front of `s`, as a number; `none` when
there is no digit (`parseInt` yields `NaN`). -/
def parseDigits (s : JStr) : Option Nat :=
  let ds := s.takeWhile isDigitJ
  if ds = [] then none
  else some (ds.foldl (fun acc c => acc * 10 + digitVal c) 0)

/-- Model of `Number.parseInt(s, 10)`: skip leading whitespace, read an
optional sign and the following digit run. -/
def parseIntJ (s : JStr) : Option Int :=
  let t := s.dropWhile isJsWhitespace
  if leadsWith ['-'] t then (parseDigits (t.drop 1)).map fun n => -(n : Int)
  else if leadsWith ['+'] t then (parseDigits (t.drop 1)).map fun n => (n : Int)
  else (parseDigits t).map fun n => (n : Int)

/-- Transcription of `extractReviewedCommits` (azure-devops.ts 726-735). -/
def extractReviewedCommits (content : JStr) : List JStr :=
  match indexOfSub content BEREAN_COMMITS_START, indexOfSub content BEREAN_COMMITS_END with
  | some startIdx, some endIdx =>
    (((substringJ content (startIdx + BEREAN_COMMITS_START.length) endIdx).splitOn ',').map
      jsTrim).filter fun s => s ≠ []
  | _, _ => []

/-- Transcription of `extractReviewedIteration` (lines 737-743);
`isNaN → undefined` is the `none` of `parseIntJ`. -/
def extractReviewedIteration (content : JStr) : Option Int :=
  match indexOfSub content BEREAN_ITERATION_START, indexOfSub content BEREAN_ITERATION_END with
  | some startIdx, some endIdx =>
    parseIntJ (jsTrim (substringJ content (startIdx + BEREAN_ITERATION_START.length) endIdx))
  | _, _ => none

/-- Transcription of `addReviewedCommitsTag` (lines 748-751). -/
def addReviewedCommitsTag (comment : JStr) (commitIds : List JStr) : JStr :=
  BEREAN_TAG ++ '\n' :: comment ++ '\n' :: '\n' ::
    (BEREAN_COMMITS_START ++ List.intercalate [','] commitIds ++ BEREAN_COMMITS_END)

/-- Transcription of `addReviewedIterationTag` (lines 756-758). -/
def addReviewedIterationTag (comment : JStr) (iterationId : Nat) : JStr :=
  comment ++ '\n' ::
    (BEREAN_ITERATION_START ++ natDigits iterationId ++ BEREAN_ITERATION_END)

/-- Counterexample to claim C6 as stated: the commit id
`":berean-commits -->"` is non-empty and comma-free, yet it collides with
the closing token, so the round-trip loses it entirely. -/
theorem c6_counterexample :
    (∀ tok ∈ [BEREAN_TAG, BEREAN_COMMITS_START, BEREAN_COMMITS_END,
        BEREAN_ITERATION_START, BEREAN_ITERATION_END],
      containsSub [] tok = false) ∧
    ":berean-commits -->".toList ≠ [] ∧
    (',' ∈ ":berean-commits -->".toList → False) ∧
    extractReviewedCommits (addReviewedCommitsTag [] [":berean-commits -->".toList]) = [] := by
  refine ⟨by decide, by decide, by decide, by decide⟩

/-- `occursAt pat s k`: `pat` occurs in `s` at index `k`. -/
def occursAt (pat s : JStr) (k : Nat) : Bool := leadsWith pat (s.drop k)

/-- No occurrence of `pat` anywhere in `s`. -/
def noOccursIn (pat s : JStr) : Prop := ∀ q, occursAt pat s q = false

theorem leadsWith_length {pat t : JStr} (h : leadsWith pat t = true) :
    pat.length ≤ t.length := by
  induction pat generalizing t with
  | nil => simp
  | cons p ps ih =>
    match t with
    | [] => exact absurd h (by simp [leadsWith])
    | c :: cs =>
      rw [leadsWith, Bool.and_eq_true] at h
      simpa using ih h.2

theorem leadsWith_getD {pat t : JStr} (h : leadsWith pat t = true) :
    ∀ i < pat.length, t.getD i ' ' = pat.getD i ' ' := by
  induction pat generalizing t with
  | nil => intro i hi; simp at hi
  | cons p ps ih =>
    match t with
    | [] => exact absurd h (by simp [leadsWith])
    | c :: cs =>
      rw [leadsWith, Bool.and_eq_true, decide_eq_true_eq] at h
      intro i hi
      match i with
      | 0 => simpa using h.1.symm
      | i + 1 => exact ih h.2 i (by simpa using hi)

theorem leadsWith_of_append {pat a b : JStr} (h : leadsWith pat (a ++ b) = true)
    (hlen : pat.length ≤ a.length) : leadsWith pat a = true := by
  induction pat generalizing a with
  | nil => rfl
  | cons p ps ih =>
    match a with
    | [] => simp at hlen
    | c :: cs =>
      rw [List.cons_append, leadsWith, Bool.and_eq_true] at h
      rw [leadsWith, Bool.and_eq_true]
      exact ⟨h.1, ih h.2 (by simpa using hlen)⟩

theorem occursAt_length {pat s : JStr} {q : Nat} (hp : pat ≠ [])
    (h : occursAt pat s q = true) : q + pat.length ≤ s.length := by
  have hlen := leadsWith_length h
  rw [List.length_drop] at hlen
  by_cases hq : q ≤ s.length
  · omega
  · have hdrop : s.drop q = [] := List.drop_eq_nil_of_le (by omega)
    rw [occursAt, hdrop] at h
    cases pat with
    | nil => exact absurd rfl hp
    | cons c cs => exact absurd h (by simp [leadsWith])

theorem occursAt_getD {pat s : JStr} {q : Nat} (h : occursAt pat s q = true) :
    ∀ i < pat.length, s.getD (q + i) ' ' = pat.getD i ' ' := by
  intro i hi
  have := leadsWith_getD h i hi
  rw [List.getD_eq_getElem?_getD, List.getElem?_drop] at this
  rw [List.getD_eq_getElem?_getD]
  exact this

/-- An occurrence cannot cover a position holding a character that the
pattern does not contain. -/
theorem not_occursAt_of_alien {pat s : JStr} {q j : Nat}
    (hj1 : q ≤ j) (hj2 : j < q + pat.length)
    (halien : s.getD j ' ' ∉ pat) : occursAt pat s q = false := by
  by_contra hocc
  rw [Bool.not_eq_false] at hocc
  have hchar := occursAt_getD hocc (j - q) (by omega)
  rw [Nat.add_sub_cancel' hj1] at hchar
  apply halien
  rw [hchar, List.getD_eq_getElem?_getD,
    List.getElem?_eq_getElem (by omega : j - q < pat.length)]
  exact List.getElem_mem _

/-- The first character of an occurrence is the first pattern
character. -/
theorem occursAt_head {pat s : JStr} {q : Nat} (h : occursAt pat s q = true)
    (hp : 0 < pat.length) : s.getD q ' ' = pat.getD 0 ' ' := by
  simpa using occursAt_getD h 0 hp

theorem occursAt_append_left {pat a b : JStr} {q : Nat}
    (h : occursAt pat (a ++ b) q = true) (hfit : q + pat.length ≤ a.length) :
    occursAt pat a q = true := by
  rw [occursAt] at h ⊢
  have hq : q ≤ a.length := by omega
  rw [List.drop_append_of_le_length hq] at h
  exact leadsWith_of_append h (by rw [List.length_drop]; omega)

theorem occursAt_append_right (pat a b : JStr) (r : Nat) :
    occursAt pat (a ++ b) (a.length + r) = occursAt pat b r := by
  rw [occursAt, occursAt, List.drop_append]

theorem occursAt_of_indexOfSub {pat s : JStr} {q : Nat}
    (h : occursAt pat s q = true) : containsSub s pat = true := by
  induction s generalizing q with
  | nil =>
    have hnil : pat = [] := by
      rw [occursAt, List.drop_nil] at h
      cases pat with
      | nil => rfl
      | cons c cs => exact absurd h (by simp [leadsWith])
    rw [containsSub, indexOfSub, if_pos (by rw [hnil]; rfl)]
    rfl
  | cons c cs ih =>
    rw [containsSub, indexOfSub]
    by_cases hl : leadsWith pat (c :: cs) = true
    · rw [if_pos hl]; rfl
    · rw [if_neg hl]
      match q with
      | 0 => exact absurd h hl
      | q + 1 =>
        have hocc : occursAt pat cs q = true := h
        have hc := ih hocc
        rw [containsSub] at hc
        cases hix : indexOfSub cs pat with
        | none => rw [hix] at hc; exact absurd hc (by simp)
        | some v => rfl

theorem noOccursIn_of_not_contains {pat s : JStr}
    (h : containsSub s pat = false) : noOccursIn pat s := by
  intro q
  by_contra hocc
  rw [Bool.not_eq_false] at hocc
  have := occursAt_of_indexOfSub hocc
  rw [h] at this
  exact Bool.false_ne_true this

theorem occursAt_ge_length {pat s : JStr} {q : Nat} (hp : pat ≠ [])
    (hq : s.length ≤ q) : occursAt pat s q = false := by
  rw [occursAt, List.drop_eq_nil_of_le hq]
  cases pat with
  | nil => exact absurd rfl hp
  | cons c cs => rfl

/-- Bounded check sufficient for `noOccursIn`. -/
theorem noOccursIn_of_all_range {pat s : JStr} (hp : pat ≠ [])
    (h : (List.range s.length).all (fun q => !occursAt pat s q) = true) :
    noOccursIn pat s := by
  intro q
  by_cases hq : q < s.length
  · have := List.all_eq_true.mp h q (List.mem_range.mpr hq)
    simpa using this
  · exact occursAt_ge_length hp (by omega)

/-- Occurrence-freeness propagates over a newline separator when the
pattern contains no newline. -/
theorem noOccursIn_append_nl {pat : JStr} (hp : pat ≠ [])
    (hnl : '\n' ∉ pat) (a b : JStr)
    (ha : noOccursIn pat a) (hb : noOccursIn pat b) :
    noOccursIn pat (a ++ '\n' :: b) := by
  intro q
  by_cases hfit : q + pat.length ≤ a.length
  · by_contra hocc
    rw [Bool.not_eq_false] at hocc
    have := occursAt_append_left hocc hfit
    rw [ha q] at this
    exact Bool.false_ne_true this
  · by_cases hq : a.length + 1 ≤ q
    · have : q = (a ++ ['\n']).length + (q - a.length - 1) := by
        simp
        omega
      rw [this, show a ++ '\n' :: b = (a ++ ['\n']) ++ b by simp,
        occursAt_append_right]
      exact hb _
    · -- the occurrence would cover the newline at position `a.length`
      apply not_occursAt_of_alien (j := a.length) (by omega) (by omega)
      rw [show a ++ '\n' :: b = (a ++ ['\n']) ++ b by simp,
        List.getD_append _ _ _ _ (by simp),
        List.getD_eq_getElem?_getD,
        List.getElem?_append_right (by simp)]
      simpa using hnl

theorem noOccursIn_nil {pat : JStr} (hp : pat ≠ []) : noOccursIn pat [] := by
  intro q
  rw [occursAt, List.drop_nil]
  cases pat with
  | nil => exact absurd rfl hp
  | cons c cs => rfl

/-- `indexOfSub` returns the least occurrence index. -/
theorem indexOfSub_first {s pat : JStr} :
    ∀ {p : Nat}, occursAt pat s p = true →
      (∀ q < p, occursAt pat s q = false) →
      indexOfSub s pat = some p := by
  induction s with
  | nil =>
    intro p hocc hmin
    have hnil : pat = [] := by
      rw [occursAt, List.drop_nil] at hocc
      cases pat with
      | nil => rfl
      | cons c cs => exact absurd hocc (by simp [leadsWith])
    have hp0 : p = 0 := by
      by_contra hne
      have := hmin 0 (by omega)
      rw [occursAt, List.drop_nil, hnil] at this
      exact Bool.true_eq_false.mp (by simpa [leadsWith] using this)
    subst hp0 hnil
    rfl
  | cons c cs ih =>
    intro p hocc hmin
    match p with
    | 0 =>
      rw [indexOfSub, if_pos (show leadsWith pat (c :: cs) = true from hocc)]
    | p + 1 =>
      have hne : leadsWith pat (c :: cs) = false := hmin 0 (by omega)
      rw [indexOfSub, if_neg (by rw [hne]; exact Bool.false_ne_true)]
      have hocc' : occursAt pat cs p = true := hocc
      have hmin' : ∀ q < p, occursAt pat cs q = false := fun q hq => hmin (q + 1) (by omega)
      rw [ih hocc' hmin']
      rfl

theorem getD_append_index (a b : JStr) (i : Nat) :
    (a ++ b).getD (a.length + i) ' ' = b.getD i ' ' := by
  rw [List.getD_eq_getElem?_getD, List.getD_eq_getElem?_getD,
    List.getElem?_append_right (by omega), Nat.add_sub_cancel_left]

/-- Every occurrence of a newline-free pattern in `W ++ '\n' :: tail`
starting before the separator is inside `W ++ ['\n']`. -/
theorem not_occursAt_before_sep {pat W tail : JStr} (hp : pat ≠ [])
    (hnl : '\n' ∉ pat) (hW : noOccursIn pat (W ++ ['\n'])) :
    ∀ q < W.length + 1, occursAt pat (W ++ '\n' :: tail) q = false := by
  intro q hq
  have hsplit : W ++ '\n' :: tail = (W ++ ['\n']) ++ tail := by simp
  by_cases hfit : q + pat.length ≤ W.length + 1
  · by_contra hocc
    rw [Bool.not_eq_false] at hocc
    rw [hsplit] at hocc
    have := occursAt_append_left hocc (by simp; omega)
    rw [hW q] at this
    exact Bool.false_ne_true this
  · have hplen : 0 < pat.length := by cases pat with
      | nil => exact absurd rfl hp
      | cons x xs => simp
    apply not_occursAt_of_alien (j := W.length) (by omega) (by omega)
    have : (W ++ '\n' :: tail).getD (W.length + 0) ' ' = '\n' := by
      rw [getD_append_index]
      rfl
    rw [Nat.add_zero] at this
    rw [this]
    exact hnl

/-- First occurrence of a newline-free token placed directly after a
newline separator following a token-free region. -/
theorem indexOfSub_after_sep {pat W rest : JStr} (hp : pat ≠ [])
    (hnl : '\n' ∉ pat) (hW : noOccursIn pat (W ++ ['\n'])) :
    indexOfSub (W ++ '\n' :: (pat ++ rest)) pat = some (W.length + 1) := by
  apply indexOfSub_first
  · have hsplit : W ++ '\n' :: (pat ++ rest) = (W ++ ['\n']) ++ (pat ++ rest) := by simp
    rw [hsplit, show W.length + 1 = (W ++ ['\n']).length + 0 by simp,
      occursAt_append_right, occursAt, List.drop_zero]
    exact leadsWith_append_self pat rest
  · exact not_occursAt_before_sep hp hnl hW

theorem dropWhile_eq_self_of {p : Char → Bool} {l : JStr}
    (h : ∀ c ∈ l, p c = false) : l.dropWhile p = l := by
  cases l with
  | nil => rfl
  | cons c cs =>
    rw [List.dropWhile_cons, if_neg]
    rw [h c (List.mem_cons_self c cs)]
    exact Bool.false_ne_true

theorem takeWhile_eq_self_of {p : Char → Bool} {l : JStr}
    (h : ∀ c ∈ l, p c = true) : l.takeWhile p = l := by
  induction l with
  | nil => rfl
  | cons c cs ih =>
    rw [List.takeWhile_cons, if_pos (h c (List.mem_cons_self c cs))]
    rw [ih fun x hx => h x (List.mem_cons_of_mem c hx)]

theorem jsTrim_eq_self_of {l : JStr} (h : ∀ c ∈ l, isJsWhitespace c = false) :
    jsTrim l = l := by
  rw [jsTrim, dropWhile_eq_self_of h,
    dropWhile_eq_self_of fun c hc => h c (List.mem_reverse.mp hc),
    List.reverse_reverse]

/-- Alphanumeric test over ASCII code points. -/
def isAlnumChar (c : Char) : Bool :=
  (97 ≤ c.toNat && c.toNat ≤ 122) || (65 ≤ c.toNat && c.toNat ≤ 90) ||
    (48 ≤ c.toNat && c.toNat ≤ 57)

theorem alnum_ne {c : Char} (d : Char) (h : isAlnumChar c = true)
    (hd : isAlnumChar d = false) : c ≠ d := by
  intro he
  rw [he, hd] at h
  exact Bool.false_ne_true h

theorem not_ws_of_alnum {c : Char} (h : isAlnumChar c = true) :
    isJsWhitespace c = false := by
  by_contra hws
  rw [Bool.not_eq_false, isJsWhitespace] at hws
  simp only [Bool.or_eq_true, decide_eq_true_eq] at hws
  rcases hws with ((((h1 | h1) | h1) | h1) | h1) | h1 <;> (subst h1; exact absurd h (by decide))

theorem mem_intercalate_comma :
    ∀ {ids : List JStr} {c : Char}, c ∈ List.intercalate [','] ids →
      (∃ id ∈ ids, c ∈ id) ∨ c = ',' := by
  intro ids
  induction ids with
  | nil => intro c hc; simp [List.intercalate, List.intersperse] at hc
  | cons x xs ih =>
    intro c hc
    match xs with
    | [] =>
      simp [List.intercalate, List.intersperse] at hc
      exact Or.inl ⟨x, List.mem_cons_self x [], hc⟩
    | y :: ys =>
      rw [show List.intercalate [','] (x :: y :: ys) =
          x ++ [','] ++ List.intercalate [','] (y :: ys) by
        simp [List.intercalate, List.intersperse]] at hc
      rcases List.mem_append.mp hc with hc | hc
      · rcases List.mem_append.mp hc with hc | hc
        · exact Or.inl ⟨x, List.mem_cons_self x _, hc⟩
        · exact Or.inr (by simpa using hc)
      · rcases ih hc with ⟨id, hid, hcid⟩ | hc
        · exact Or.inl ⟨id, List.mem_cons_of_mem x hid, hcid⟩
        · exact Or.inr hc

theorem digitVal_digitChar : ∀ n < 10, digitVal (digitChar n) = n := by decide

theorem isDigitJ_digitChar : ∀ n < 10, isDigitJ (digitChar n) = true := by decide

theorem natDigitsAux_spec :
    ∀ (fuel n : Nat), n < fuel →
      natDigitsAux fuel n ≠ [] ∧
      (∀ c ∈ natDigitsAux fuel n, isDigitJ c = true) ∧
      ∀ acc : Nat, (natDigitsAux fuel n).foldl (fun a c => a * 10 + digitVal c) acc =
        acc * 10 ^ (natDigitsAux fuel n).length + n := by
  intro fuel
  induction fuel with
  | zero => intro n hn; omega
  | succ m ih =>
    intro n hn
    by_cases hlt : n < 10
    · rw [natDigitsAux, if_pos hlt]
      refine ⟨by simp, ?_, ?_⟩
      · intro c hc
        rw [List.mem_singleton] at hc
        rw [hc]
        exact isDigitJ_digitChar n hlt
      · intro acc
        simp [List.foldl, digitVal_digitChar n hlt]
    · rw [natDigitsAux, if_neg hlt]
      have hdiv : n / 10 < m := by omega
      obtain ⟨hne, hdig, hval⟩ := ih (n / 10) hdiv
      refine ⟨by simp, ?_, ?_⟩
      · intro c hc
        rcases List.mem_append.mp hc with hc | hc
        · exact hdig c hc
        · rw [List.mem_singleton] at hc
          rw [hc]
          exact isDigitJ_digitChar _ (by omega)
      · intro acc
        rw [List.foldl_append, hval acc, List.length_append, List.length_singleton,
          List.foldl, List.foldl, digitVal_digitChar _ (by omega), pow_succ]
        have := Nat.div_add_mod n 10
        ring_nf
        omega

theorem natDigits_ne_nil (n : Nat) : natDigits n ≠ [] :=
  (natDigitsAux_spec (n + 1) n (by omega)).1

theorem natDigits_all_digits (n : Nat) : ∀ c ∈ natDigits n, isDigitJ c = true :=
  (natDigitsAux_spec (n + 1) n (by omega)).2.1

theorem parseDigits_natDigits (n : Nat) : parseDigits (natDigits n) = some n := by
  rw [parseDigits]
  rw [takeWhile_eq_self_of (natDigits_all_digits n)]
  rw [if_neg (by simpa using natDigits_ne_nil n)]
  have := (natDigitsAux_spec (n + 1) n (by omega)).2.2 0
  rw [natDigits, this]
  simp

theorem digit_ne {c : Char} (d : Char) (h : isDigitJ c = true)
    (hd : isDigitJ d = false) : c ≠ d := by
  intro he
  rw [he, hd] at h
  exact Bool.false_ne_true h

theorem not_ws_of_digit {c : Char} (h : isDigitJ c = true) :
    isJsWhitespace c = false := by
  by_contra hws
  rw [Bool.not_eq_false, isJsWhitespace] at hws
  simp only [Bool.or_eq_true, decide_eq_true_eq] at hws
  rcases hws with ((((h1 | h1) | h1) | h1) | h1) | h1 <;> (subst h1; exact absurd h (by decide))

theorem getD_append_right_index (a b : JStr) (n : Nat) (h : a.length ≤ n) :
    (a ++ b).getD n ' ' = b.getD (n - a.length) ' ' := by
  rw [List.getD_eq_getElem?_getD, List.getD_eq_getElem?_getD,
    List.getElem?_append_right h]

theorem join_char_class {ids : List JStr}
    (hids : ∀ id ∈ ids, ∀ c ∈ id, isAlnumChar c = true) :
    ∀ i < (List.intercalate [','] ids).length,
      isAlnumChar ((List.intercalate [','] ids).getD i ' ') = true ∨
        (List.intercalate [','] ids).getD i ' ' = ',' := by
  intro i hi
  have hmem : (List.intercalate [','] ids).getD i ' ' ∈ List.intercalate [','] ids := by
    rw [List.getD_eq_getElem?_getD, List.getElem?_eq_getElem hi]
    exact List.getElem_mem hi
  rcases mem_intercalate_comma hmem with ⟨id, hid, hc⟩ | hc
  · exact Or.inl (hids id hid _ hc)
  · exact Or.inr hc

theorem indexOfSub_commits_end (W join : JStr)
    (hW : noOccursIn BEREAN_COMMITS_END (W ++ ['\n']))
    (hjoin : ∀ i < join.length,
      isAlnumChar (join.getD i ' ') = true ∨ join.getD i ' ' = ',') :
    indexOfSub (W ++ '\n' :: (BEREAN_COMMITS_START ++ (join ++ BEREAN_COMMITS_END)))
      BEREAN_COMMITS_END = some (W.length + 1 + 20 + join.length) := by
  have hlenS : BEREAN_COMMITS_START.length = 20 := by decide
  apply indexOfSub_first
  · have hsplit : W ++ '\n' :: (BEREAN_COMMITS_START ++ (join ++ BEREAN_COMMITS_END)) =
        (W ++ '\n' :: (BEREAN_COMMITS_START ++ join)) ++ BEREAN_COMMITS_END := by simp
    have hlen : W.length + 1 + 20 + join.length =
        (W ++ '\n' :: (BEREAN_COMMITS_START ++ join)).length + 0 := by
      simp [hlenS]
      omega
    rw [hsplit, hlen, occursAt_append_right, occursAt, List.drop_zero]
    simpa using leadsWith_append_self BEREAN_COMMITS_END []
  · intro q hq
    by_cases hq1 : q < W.length + 1
    · exact not_occursAt_before_sep (by decide) (by decide) hW q hq1
    · by_contra hocc
      rw [Bool.not_eq_false] at hocc
      have hqe : q = (W ++ ['\n']).length + (q - (W.length + 1)) := by simp; omega
      have hofflt : q - (W.length + 1) < 20 + join.length := by
        simp at hq
        omega
      have hsplit2 : W ++ '\n' :: (BEREAN_COMMITS_START ++ (join ++ BEREAN_COMMITS_END)) =
          (W ++ ['\n']) ++ (BEREAN_COMMITS_START ++ (join ++ BEREAN_COMMITS_END)) := by simp
      have hhead := occursAt_head hocc (by decide)
      rw [hsplit2, hqe, getD_append_index,
        show BEREAN_COMMITS_END.getD 0 ' ' = ':' from by decide] at hhead
      by_cases hoffS : q - (W.length + 1) < 20
      · -- inside the start token: only its final colon position is possible
        rw [List.getD_append _ _ _ _ (by rw [hlenS]; exact hoffS)] at hhead
        have hoff19 : q - (W.length + 1) = 19 := by
          by_contra hne19
          exact (show ∀ i < 20, i ≠ 19 → BEREAN_COMMITS_START.getD i ' ' ≠ ':' from
            by decide) _ hoffS hne19 hhead
        -- compare character 7 of the closing token
        have hchar := occursAt_getD hocc 7 (by decide)
        have hq7 : q + 7 = ((W ++ ['\n']) ++ BEREAN_COMMITS_START).length + 6 := by
          simp [hlenS]
          omega
        have hsplit3 : W ++ '\n' :: (BEREAN_COMMITS_START ++ (join ++ BEREAN_COMMITS_END)) =
            ((W ++ ['\n']) ++ BEREAN_COMMITS_START) ++ (join ++ BEREAN_COMMITS_END) := by simp
        rw [hsplit3, hq7, getD_append_index,
          show BEREAN_COMMITS_END.getD 7 ' ' = '-' from by decide] at hchar
        by_cases hj6 : 6 < join.length
        · rw [List.getD_append _ _ _ _ hj6] at hchar
          rcases hjoin 6 hj6 with ha | hc
          · exact alnum_ne '-' ha (by decide) hchar
          · rw [hc] at hchar
            exact absurd hchar (by decide)
        · rw [getD_append_right_index _ _ _ (by omega)] at hchar
          exact (show ∀ m < 7, BEREAN_COMMITS_END.getD m ' ' ≠ '-' from by decide)
            (6 - join.length) (by omega) hchar
      · -- inside the joined ids: no colon occurs there
        rw [getD_append_right_index _ _ _ (by rw [hlenS]; omega)] at hhead
        rw [hlenS] at hhead
        have hjlt : q - (W.length + 1) - 20 < join.length := by omega
        rw [List.getD_append _ _ _ _ hjlt] at hhead
        rcases hjoin _ hjlt with ha | hc
        · exact alnum_ne ':' ha (by decide) hhead
        · rw [hc] at hhead
          exact absurd hhead (by decide)

theorem indexOfSub_iteration_end (W digits : JStr)
    (hW : noOccursIn BEREAN_ITERATION_END (W ++ ['\n']))
    (hdig : ∀ c ∈ digits, isDigitJ c = true) (hne : digits ≠ []) :
    indexOfSub (W ++ '\n' :: (BEREAN_ITERATION_START ++ (digits ++ BEREAN_ITERATION_END)))
      BEREAN_ITERATION_END = some (W.length + 1 + 22 + digits.length) := by
  have hlenS : BEREAN_ITERATION_START.length = 22 := by decide
  have hdigD : ∀ i < digits.length, isDigitJ (digits.getD i ' ') = true := by
    intro i hi
    apply hdig
    rw [List.getD_eq_getElem?_getD, List.getElem?_eq_getElem hi]
    exact List.getElem_mem hi
  apply indexOfSub_first
  · have hsplit : W ++ '\n' :: (BEREAN_ITERATION_START ++ (digits ++ BEREAN_ITERATION_END)) =
        (W ++ '\n' :: (BEREAN_ITERATION_START ++ digits)) ++ BEREAN_ITERATION_END := by simp
    have hlen : W.length + 1 + 22 + digits.length =
        (W ++ '\n' :: (BEREAN_ITERATION_START ++ digits)).length + 0 := by
      simp [hlenS]
      omega
    rw [hsplit, hlen, occursAt_append_right, occursAt, List.drop_zero]
    simpa using leadsWith_append_self BEREAN_ITERATION_END []
  · intro q hq
    by_cases hq1 : q < W.length + 1
    · exact not_occursAt_before_sep (by decide) (by decide) hW q hq1
    · by_contra hocc
      rw [Bool.not_eq_false] at hocc
      have hqe : q = (W ++ ['\n']).length + (q - (W.length + 1)) := by simp; omega
      have hofflt : q - (W.length + 1) < 22 + digits.length := by
        simp at hq
        omega
      have hsplit2 : W ++ '\n' :: (BEREAN_ITERATION_START ++ (digits ++ BEREAN_ITERATION_END)) =
          (W ++ ['\n']) ++ (BEREAN_ITERATION_START ++ (digits ++ BEREAN_ITERATION_END)) := by
        simp
      have hhead := occursAt_head hocc (by decide)
      rw [hsplit2, hqe, getD_append_index,
        show BEREAN_ITERATION_END.getD 0 ' ' = ':' from by decide] at hhead
      by_cases hoffS : q - (W.length + 1) < 22
      · rw [List.getD_append _ _ _ _ (by rw [hlenS]; exact hoffS)] at hhead
        have hoff21 : q - (W.length + 1) = 21 := by
          by_contra hne21
          exact (show ∀ i < 22, i ≠ 21 → BEREAN_ITERATION_START.getD i ' ' ≠ ':' from
            by decide) _ hoffS hne21 hhead
        have hchar := occursAt_getD hocc 1 (by decide)
        have hq1' : q + 1 = ((W ++ ['\n']) ++ BEREAN_ITERATION_START).length + 0 := by
          simp [hlenS]
          omega
        have hsplit3 : W ++ '\n' :: (BEREAN_ITERATION_START ++ (digits ++ BEREAN_ITERATION_END)) =
            ((W ++ ['\n']) ++ BEREAN_ITERATION_START) ++ (digits ++ BEREAN_ITERATION_END) := by
          simp
        rw [hsplit3, hq1', getD_append_index,
          show BEREAN_ITERATION_END.getD 1 ' ' = 'b' from by decide] at hchar
        have hpos : 0 < digits.length := by
          cases digits with
          | nil => exact absurd rfl hne
          | cons c cs => simp
        rw [List.getD_append _ _ _ _ hpos] at hchar
        exact digit_ne 'b' (hdigD 0 hpos) (by decide) hchar
      · rw [getD_append_right_index _ _ _ (by rw [hlenS]; omega)] at hhead
        rw [hlenS] at hhead
        have hjlt : q - (W.length + 1) - 22 < digits.length := by omega
        rw [List.getD_append _ _ _ _ hjlt] at hhead
        exact digit_ne ':' (hdigD _ hjlt) (by decide) hhead

theorem extract_commits_general (W : JStr) (ids : List JStr)
    (hWS : noOccursIn BEREAN_COMMITS_START (W ++ ['\n']))
    (hWE : noOccursIn BEREAN_COMMITS_END (W ++ ['\n']))
    (hids : ∀ id ∈ ids, id ≠ [] ∧ ∀ c ∈ id, isAlnumChar c = true) :
    extractReviewedCommits (W ++ '\n' :: (BEREAN_COMMITS_START ++
      (List.intercalate [','] ids ++ BEREAN_COMMITS_END))) = ids := by
  have hlenS : BEREAN_COMMITS_START.length = 20 := by decide
  have hidx1 :
      indexOfSub (W ++ '\n' :: (BEREAN_COMMITS_START ++
        (List.intercalate [','] ids ++ BEREAN_COMMITS_END))) BEREAN_COMMITS_START =
      some (W.length + 1) := by
    have hshape : W ++ '\n' :: (BEREAN_COMMITS_START ++
        (List.intercalate [','] ids ++ BEREAN_COMMITS_END)) =
        W ++ '\n' :: (BEREAN_COMMITS_START ++
          (List.intercalate [','] ids ++ BEREAN_COMMITS_END)) := rfl
    exact indexOfSub_after_sep (by decide) (by decide) hWS
  have hidx2 :
      indexOfSub (W ++ '\n' :: (BEREAN_COMMITS_START ++
        (List.intercalate [','] ids ++ BEREAN_COMMITS_END))) BEREAN_COMMITS_END =
      some (W.length + 1 + 20 + (List.intercalate [','] ids).length) :=
    indexOfSub_commits_end W _ hWE (join_char_class fun id hid => (hids id hid).2)
  rw [extractReviewedCommits, hidx1, hidx2]
  have hsub : substringJ (W ++ '\n' :: (BEREAN_COMMITS_START ++
      (List.intercalate [','] ids ++ BEREAN_COMMITS_END)))
      (W.length + 1 + BEREAN_COMMITS_START.length)
      (W.length + 1 + 20 + (List.intercalate [','] ids).length) =
      List.intercalate [','] ids := by
    rw [hlenS, substringJ,
      Nat.min_eq_left (by omega), Nat.max_eq_right (by omega)]
    have hshape : W ++ '\n' :: (BEREAN_COMMITS_START ++
        (List.intercalate [','] ids ++ BEREAN_COMMITS_END)) =
        ((W ++ ['\n']) ++ BEREAN_COMMITS_START) ++
          (List.intercalate [','] ids ++ BEREAN_COMMITS_END) := by simp
    have hAlen : ((W ++ ['\n']) ++ BEREAN_COMMITS_START).length = W.length + 1 + 20 := by
      simp [hlenS]
    rw [hshape,
      show W.length + 1 + 20 + (List.intercalate [','] ids).length =
        ((W ++ ['\n']) ++ BEREAN_COMMITS_START).length +
          (List.intercalate [','] ids).length by omega,
      List.take_append,
      show W.length + 1 + 20 = ((W ++ ['\n']) ++ BEREAN_COMMITS_START).length by omega,
      List.take_left, List.drop_left]
  simp only [hsub]
  match ids with
  | [] => decide
  | x :: xs =>
    have hcomma : ∀ id ∈ x :: xs, ',' ∉ id := by
      intro id hid hmem
      exact absurd ((hids id hid).2 ',' hmem) (by decide)
    rw [List.splitOn_intercalate (x :: xs) ',' hcomma (by simp)]
    have hmap : List.map jsTrim (x :: xs) = x :: xs := by
      have h1 : List.map jsTrim (x :: xs) = List.map (fun id => id) (x :: xs) :=
        List.map_congr_left fun id hid =>
          jsTrim_eq_self_of fun c hc => not_ws_of_alnum ((hids id hid).2 c hc)
      simpa using h1
    rw [hmap, List.filter_eq_self.mpr fun id hid => by simpa using (hids id hid).1]

theorem extract_iteration_general (W : JStr) (n : Nat)
    (hWS : noOccursIn BEREAN_ITERATION_START (W ++ ['\n']))
    (hWE : noOccursIn BEREAN_ITERATION_END (W ++ ['\n'])) :
    extractReviewedIteration (W ++ '\n' :: (BEREAN_ITERATION_START ++
      (natDigits n ++ BEREAN_ITERATION_END))) = some (n : Int) := by
  have hlenS : BEREAN_ITERATION_START.length = 22 := by decide
  have hidx1 :
      indexOfSub (W ++ '\n' :: (BEREAN_ITERATION_START ++
        (natDigits n ++ BEREAN_ITERATION_END))) BEREAN_ITERATION_START =
      some (W.length + 1) :=
    indexOfSub_after_sep (by decide) (by decide) hWS
  have hidx2 :
      indexOfSub (W ++ '\n' :: (BEREAN_ITERATION_START ++
        (natDigits n ++ BEREAN_ITERATION_END))) BEREAN_ITERATION_END =
      some (W.length + 1 + 22 + (natDigits n).length) :=
    indexOfSub_iteration_end W _ hWE (natDigits_all_digits n) (natDigits_ne_nil n)
  have hred : extractReviewedIteration (W ++ '\n' :: (BEREAN_ITERATION_START ++
      (natDigits n ++ BEREAN_ITERATION_END))) =
      parseIntJ (jsTrim (substringJ (W ++ '\n' :: (BEREAN_ITERATION_START ++
          (natDigits n ++ BEREAN_ITERATION_END)))
        (W.length + 1 + BEREAN_ITERATION_START.length)
        (W.length + 1 + 22 + (natDigits n).length))) := by
    rw [extractReviewedIteration, hidx1, hidx2]
  rw [hred]
  have hsub : substringJ (W ++ '\n' :: (BEREAN_ITERATION_START ++
      (natDigits n ++ BEREAN_ITERATION_END)))
      (W.length + 1 + BEREAN_ITERATION_START.length)
      (W.length + 1 + 22 + (natDigits n).length) = natDigits n := by
    rw [hlenS, substringJ,
      Nat.min_eq_left (by omega), Nat.max_eq_right (by omega)]
    have hshape : W ++ '\n' :: (BEREAN_ITERATION_START ++
        (natDigits n ++ BEREAN_ITERATION_END)) =
        ((W ++ ['\n']) ++ BEREAN_ITERATION_START) ++
          (natDigits n ++ BEREAN_ITERATION_END) := by simp
    have hAlen : ((W ++ ['\n']) ++ BEREAN_ITERATION_START).length = W.length + 1 + 22 := by
      simp [hlenS]
    rw [hshape,
      show W.length + 1 + 22 + (natDigits n).length =
        ((W ++ ['\n']) ++ BEREAN_ITERATION_START).length + (natDigits n).length by omega,
      List.take_append,
      show W.length + 1 + 22 = ((W ++ ['\n']) ++ BEREAN_ITERATION_START).length by omega,
      List.take_left, List.drop_left]
  rw [hsub]
  rw [jsTrim_eq_self_of fun c hc => not_ws_of_digit (natDigits_all_digits n c hc)]
  have hdw : (natDigits n).dropWhile isJsWhitespace = natDigits n :=
    dropWhile_eq_self_of fun c hc => not_ws_of_digit (natDigits_all_digits n c hc)
  have hhd : ∀ d : Char, isDigitJ d = false → leadsWith [d] (natDigits n) = false := by
    intro d hd
    cases hnd : natDigits n with
    | nil => exact absurd hnd (natDigits_ne_nil n)
    | cons c cs =>
      have hc : isDigitJ c = true := natDigits_all_digits n c (by rw [hnd]; simp)
      have hne : c ≠ d := digit_ne d hc hd
      rw [leadsWith]
      simp [Ne.symm hne]
  simp only [parseIntJ, hdw]
  rw [if_neg (by rw [hhd '-' (by decide)]; exact Bool.false_ne_true),
    if_neg (by rw [hhd '+' (by decide)]; exact Bool.false_ne_true),
    parseDigits_natDigits]
  rfl

/-- Claim C6 (amended): marker round-trip.  For every comment body free of
all five Berean marker tokens and every list of non-empty commit ids made
of ASCII letters and digits (the shape of real commit ids; the
counterexample shows comma-freedom alone does not suffice),
`extractReviewedCommits ∘ addReviewedCommitsTag` returns exactly the ids,
and for every natural `n`, `extractReviewedIteration ∘
addReviewedIterationTag` returns exactly `n`. -/
theorem c6_marker_roundtrip (body : JStr) (ids : List JStr) (n : Nat)
    (hbody : ∀ tok ∈ [BEREAN_TAG, BEREAN_COMMITS_START, BEREAN_COMMITS_END,
        BEREAN_ITERATION_START, BEREAN_ITERATION_END], containsSub body tok = false)
    (hids : ∀ id ∈ ids, id ≠ [] ∧ ∀ c ∈ id, isAlnumChar c = true) :
    extractReviewedCommits (addReviewedCommitsTag body ids) = ids ∧
    extractReviewedIteration (addReviewedIterationTag body n) = some (n : Int) := by
  constructor
  · have hshape : addReviewedCommitsTag body ids =
        (BEREAN_TAG ++ '\n' :: body ++ ['\n']) ++ '\n' :: (BEREAN_COMMITS_START ++
          (List.intercalate [','] ids ++ BEREAN_COMMITS_END)) := by
      simp [addReviewedCommitsTag]
    rw [hshape]
    apply extract_commits_general
    · have heq : (BEREAN_TAG ++ '\n' :: body ++ ['\n']) ++ ['\n'] =
          BEREAN_TAG ++ '\n' :: (body ++ '\n' :: ['\n']) := by simp
      rw [heq]
      exact noOccursIn_append_nl (by decide) (by decide) _ _
        (noOccursIn_of_all_range (by decide) (by decide))
        (noOccursIn_append_nl (by decide) (by decide) _ _
          (noOccursIn_of_not_contains (hbody _ (by simp)))
          (noOccursIn_of_all_range (by decide) (by decide)))
    · have heq : (BEREAN_TAG ++ '\n' :: body ++ ['\n']) ++ ['\n'] =
          BEREAN_TAG ++ '\n' :: (body ++ '\n' :: ['\n']) := by simp
      rw [heq]
      exact noOccursIn_append_nl (by decide) (by decide) _ _
        (noOccursIn_of_all_range (by decide) (by decide))
        (noOccursIn_append_nl (by decide) (by decide) _ _
          (noOccursIn_of_not_contains (hbody _ (by simp)))
          (noOccursIn_of_all_range (by decide) (by decide)))
    · exact hids
  · have hshape : addReviewedIterationTag body n =
        body ++ '\n' :: (BEREAN_ITERATION_START ++
          (natDigits n ++ BEREAN_ITERATION_END)) := by
      simp [addReviewedIterationTag]
    rw [hshape]
    apply extract_iteration_general
    · exact noOccursIn_append_nl (by decide) (by decide) _ _
        (noOccursIn_of_not_contains (hbody _ (by simp)))
        (noOccursIn_nil (by decide))
    · exact noOccursIn_append_nl (by decide) (by decide) _ _
        (noOccursIn_of_not_contains (hbody _ (by simp)))
        (noOccursIn_nil (by decide))

/-- Witness for claim C6: body `"hello"`, ids `["abc123", "DEF9"]`,
iteration 57. -/
theorem c6_marker_roundtrip_witness :
    (∀ tok ∈ [BEREAN_TAG, BEREAN_COMMITS_START, BEREAN_COMMITS_END,
        BEREAN_ITERATION_START, BEREAN_ITERATION_END],
      containsSub "hello".toList tok = false) ∧
    (∀ id ∈ ["abc123".toList, "DEF9".toList],
      id ≠ [] ∧ ∀ c ∈ id, isAlnumChar c = true) ∧
    extractReviewedCommits (addReviewedCommitsTag "hello".toList
      ["abc123".toList, "DEF9".toList]) = ["abc123".toList, "DEF9".toList] ∧
    extractReviewedIteration (addReviewedIterationTag "hello".toList 57) =
      some (57 : Int) :=
  ⟨by decide, by decide,
    (c6_marker_roundtrip "hello".toList ["abc123".toList, "DEF9".toList] 57
      (by decide) (by decide)).1,
    (c6_marker_roundtrip "hello".toList ["abc123".toList, "DEF9".toList] 57
      (by decide) (by decide)).2⟩

end Berean
